import Mathlib

/-!
Shallow embedding of the register-allocation core of `src/arm/codegen.rs`
(chigusa): basic-block linearizer, live-interval scanner and the
second-chance bin-packing register allocator, together with proofs about
the properties claimed of them.

Rust data structures are embedded as follows: `IndexMap` becomes an
association list with unique keys kept in insertion order, `BiMap` a list
of pairs updated through operations mirroring the bimap crate, `Vec1` a
head-plus-tail structure storing the most recent element first, and every
panicking operation (`unwrap`, `expect`, `assert!`, `panic!`, `todo!`)
returns `Except String` carrying the panic payload.  Types that live in
parts of the repository outside `src/` (the `mir` module, `util.rs`, the
register-pool statics) are modelled from the specification and marked as
such in their doc comments.
-/

namespace Chigusa

/-- Run-monad for embedded Rust code: `Except.error msg` models a panic
whose payload is `msg` (`todo!` payloads keep Rust's
"not yet implemented" prefix). -/
abbrev Run (α : Type) : Type := Except String α

/-! ## Association lists (embedding of `IndexMap`) -/

/-- First-match lookup, embedding `IndexMap::get`. -/
def alookup {α : Type} : List (Nat × α) → Nat → Option α
  | [], _ => none
  | (k, v) :: rest, key => if k = key then some v else alookup rest key

/-- Insert or replace in place, embedding `IndexMap::insert` /
`Entry::or_insert` (an existing key keeps its position, a new key is
appended). -/
def ainsert {α : Type} : List (Nat × α) → Nat → α → List (Nat × α)
  | [], key, v => [(key, v)]
  | (k, w) :: rest, key, v =>
    if k = key then (k, v) :: rest else (k, w) :: ainsert rest key v

/-- Remove a key, embedding `IndexMap::remove` (claims never depend on the
residual entry order, so index perturbation of swap-removal is dropped). -/
def aerase {α : Type} (l : List (Nat × α)) (key : Nat) : List (Nat × α) :=
  l.filter fun p => decide (p.1 ≠ key)

/-- The keys of an association list, in insertion order. -/
def akeys {α : Type} (l : List (Nat × α)) : List Nat :=
  l.map Prod.fst

/-! ## Bidirectional map (embedding of `bimap::BiMap`) -/

/-- `BiMap::insert`: evicts any pair sharing either side, then adds. -/
def bimapInsert (m : List (Nat × Nat)) (l r : Nat) : List (Nat × Nat) :=
  (m.filter fun p => decide (p.1 ≠ l) && decide (p.2 ≠ r)) ++ [(l, r)]

/-- `BiMap::remove_by_left`. -/
def bimapRemoveLeft (m : List (Nat × Nat)) (l : Nat) : List (Nat × Nat) :=
  m.filter fun p => decide (p.1 ≠ l)

/-- `BiMap::get_by_left`. -/
def bimapGetLeft (m : List (Nat × Nat)) (l : Nat) : Option Nat :=
  (m.find? fun p => decide (p.1 = l)).map Prod.snd

/-- `BiMap::get_by_right`. -/
def bimapGetRight (m : List (Nat × Nat)) (r : Nat) : Option Nat :=
  (m.find? fun p => decide (p.2 = r)).map Prod.fst

/-- `BiMap::contains_right`. -/
def bimapContainsRight (m : List (Nat × Nat)) (r : Nat) : Bool :=
  m.any fun p => decide (p.2 = r)

/-! ## Nonempty vectors (embedding of `vec1::Vec1`)

The most recent element is stored first (`recent`), so Rust's
`last` / `last_mut` act on `recent` and `push` conses onto the history. -/

/-- A nonempty sequence; `recent` is the element Rust's `Vec1::last`
returns, `older` holds the previously pushed elements, most recent
first. -/
structure Vec1 (α : Type) where
  recent : α
  older : List α
deriving DecidableEq, Repr

/-- `vec1![a]`. -/
def Vec1.one {α : Type} (a : α) : Vec1 α := ⟨a, []⟩

/-- `Vec1::push` (the new element becomes the last/most recent one). -/
def Vec1.push {α : Type} (v : Vec1 α) (a : α) : Vec1 α := ⟨a, v.recent :: v.older⟩

/-- All elements, most recent first (iteration order is never observable
in the claims). -/
def Vec1.toList {α : Type} (v : Vec1 α) : List α := v.recent :: v.older

/-! ## Intervals

Modelled from the spec: `Interval` lives in `src/arm/util.rs`, which is
not part of the given sources.  The spec describes it as a closed range
`[start, end]` of positions with `point`, `union` (smallest interval
containing both), `is_inside_write` (interior membership, exclusive edge
semantics), `alive_for_reading` (closed-range membership),
`split(pos)` (destructively truncate to end at `pos` and return the
removed tail starting at `pos`) and a length. -/

/-- Modelled from the spec: a closed interval `[lo, hi]` of linear
positions (the `Interval` tuple struct of `src/arm/util.rs`, not under
`src/`). -/
structure Interval where
  lo : Nat
  hi : Nat
deriving DecidableEq, Repr

/-- Modelled from the spec: a point interval (`start = end`). -/
def Interval.point (p : Nat) : Interval := ⟨p, p⟩

/-- Modelled from the spec: smallest interval containing both. -/
def Interval.union (a b : Interval) : Interval :=
  ⟨min a.lo b.lo, max a.hi b.hi⟩

/-- Modelled from the spec: a write opens or extends the start of the
interval. -/
def Interval.update_starting_pos (i : Interval) (p : Nat) : Interval :=
  ⟨min i.lo p, i.hi⟩

/-- Modelled from the spec: a read closes or extends the end of the
interval. -/
def Interval.update_ending_pos (i : Interval) (p : Nat) : Interval :=
  ⟨i.lo, max i.hi p⟩

/-- Modelled from the spec: closed-range membership. -/
def Interval.alive_for_reading (i : Interval) (p : Nat) : Bool :=
  decide (i.lo ≤ p) && decide (p ≤ i.hi)

/-- Modelled from the spec: interior membership with exclusive edges
(write-then-read ordering tolerates shared endpoints). -/
def Interval.is_inside_write (i : Interval) (p : Nat) : Bool :=
  decide (i.lo < p) && decide (p < i.hi)

/-- Modelled from the spec: what remains of the interval after
`split(pos)` truncates it at `pos`. -/
def Interval.splitKeep (i : Interval) (p : Nat) : Interval := ⟨i.lo, p⟩

/-- Modelled from the spec: the tail `split(pos)` returns, representing
the continuation from `pos`. -/
def Interval.splitTail (i : Interval) (p : Nat) : Interval := ⟨p, i.hi⟩

/-- Modelled from the spec: total length of the interval. -/
def Interval.len (i : Interval) : Nat := i.hi - i.lo

/-! ## MIR data model

Modelled from the spec: the `mir` module is not among the given sources;
§3 of the spec describes the function/block/instruction shapes this core
consumes, and the usage sites in `src/arm/codegen.rs` fix the accessors. -/

/-- Modelled from the spec: a variable reference is tagged `Global` or
`Local`. -/
inductive VarTy : Type
  | Global : VarTy
  | Local : VarTy
deriving DecidableEq, Repr

/-- Modelled from the spec: `mir::VarRef(VarTy, usize)`. -/
structure VarRef where
  ty : VarTy
  id : Nat
deriving DecidableEq, Repr

/-- `VarRef::get_local_id`: only `Local` ids participate in interval
tracking. -/
def VarRef.get_local_id (v : VarRef) : Option Nat :=
  match v.ty with
  | VarTy.Local => some v.id
  | VarTy.Global => none

/-- Modelled from the spec: an operand value is a variable reference or a
constant. -/
inductive Value : Type
  | Var : VarRef → Value
  | IntImm : Int → Value
deriving DecidableEq, Repr

/-- Modelled from the spec: instruction operations
(`TypeCast/Assign/BinaryOp/UnaryOp/Call/Phi/RestRead`), with the
constructor names used at the match sites of `codegen.rs`.  Phi operands
pair a predecessor block id with the incoming variable. -/
inductive Ins : Type
  | TyCon : Value → Ins
  | Asn : Value → Ins
  | Bin : Nat → Value → Value → Ins
  | Una : Nat → Value → Ins
  | Call : Nat → List Value → Ins
  | Phi : List (Nat × VarRef) → Ins
  | RestRead : Nat → Ins
deriving DecidableEq, Repr

/-- Modelled from the spec: an instruction is a target reference plus an
operation. -/
structure Inst where
  tgt : VarRef
  ins : Ins
deriving DecidableEq, Repr

/-- Modelled from the spec: block terminators. -/
inductive JumpInst : Type
  | Jump : Nat → JumpInst
  | Conditional : Value → Nat → Nat → JumpInst
  | Return : Option Value → JumpInst
  | Unreachable : JumpInst
  | Unknown : JumpInst
deriving DecidableEq, Repr

/-- `JumpInst::next_ids`: successor block ids of a terminator. -/
def JumpInst.next_ids : JumpInst → List Nat
  | JumpInst.Jump id => [id]
  | JumpInst.Conditional _ t f => [t, f]
  | JumpInst.Return _ => []
  | JumpInst.Unreachable => []
  | JumpInst.Unknown => []

/-- Modelled from the spec: a basic block is an instruction sequence, a
terminator, the set of incoming block ids and the set of variables the
block assumes live on entry. -/
structure BasicBlk where
  inst : List Inst
  term : JumpInst
  jump_in : List Nat
  uses_var : List Nat
deriving DecidableEq, Repr

/-- Modelled from the spec: variable kinds. -/
inductive VarKind : Type
  | Param : VarKind
  | Ret : VarKind
  | Local : VarKind
  | FixedTemp : VarKind
deriving DecidableEq, Repr

/-- Modelled from the spec: value types; only single-register-wide types
are supported, wider ones exist solely to be reported as a missing
feature. -/
inductive Ty : Type
  | int : Ty
  | double : Ty
deriving DecidableEq, Repr

/-- Modelled from the spec: number of registers a value of this type
occupies. -/
def Ty.register_count : Ty → Nat
  | Ty.int => 1
  | Ty.double => 2

/-- Modelled from the spec: whether the type needs two registers. -/
def Ty.require_double_registers : Ty → Bool
  | Ty.int => false
  | Ty.double => true

/-- Modelled from the spec: a variable declaration. -/
structure VarDecl where
  kind : VarKind
  ty : Ty
deriving DecidableEq, Repr

/-- Modelled from the spec: a function is a block table plus a variable
table, both in declaration order. -/
structure Func where
  bb : List (Nat × BasicBlk)
  var_table : List (Nat × VarDecl)
deriving DecidableEq, Repr

/-- Modelled from the spec: the four fixed register pools
(`PARAM_REGISTERS`, `RESULT_REGISTERS`, `VARIABLE_REGISTERS`,
`SCRATCH_VARIABLE_ALLOWED_REGISTERS` of `src/arm/mod.rs`, not under
`src/`), each an ordered deduplicated set of register ids. -/
structure RegPools where
  param_registers : List Nat
  result_registers : List Nat
  variable_registers : List Nat
  scratch_registers : List Nat
deriving DecidableEq, Repr

/-! ## Stable sort by a natural-number key

`IndexMap::sort_by` and `slice::sort_by_cached_key` are stable sorts; a
stable insertion sort keeps the proofs elementary. -/

/-- Insert one element behind all already-placed elements with a key less
than or equal to its own. -/
def insertSorted {α : Type} (key : α → Nat) (x : α) : List α → List α
  | [] => [x]
  | y :: ys => if key y ≤ key x then y :: insertSorted key x ys else x :: y :: ys

/-- Stable sort, ascending in `key`. -/
def stableSortByKey {α : Type} (key : α → Nat) (l : List α) : List α :=
  l.foldl (fun acc x => insertSorted key x acc) []

/-! ## Union-find collapse table (`BasicBlkIntervals::get_collapsed_var*`)

The Rust lookup recurses through the table with no structural bound, so
the embedding carries fuel; `tbl.length + 1` steps suffice for any
acyclic table (an acyclic chain visits distinct keys), and running out of
fuel models the stack overflow the Rust recursion would hit on a cyclic
table.  The lookup path-compresses, so it returns the updated table. -/

/-- Fueled embedding of `get_collapsed_var_optional`, returning the
updated table (the recursion caches resolved canonical ids back into the
table); `none` models non-termination of the Rust recursion. -/
def getCollapsedVarOptionalF : Nat → List (Nat × Nat) → Nat →
    Option (List (Nat × Nat) × Option Nat)
  | 0, _, _ => none
  | fuel + 1, tbl, var =>
    match alookup tbl var with
    | none => some (tbl, none)
    | some v =>
      match getCollapsedVarOptionalF fuel tbl v with
      | none => none
      | some (tbl', res) =>
        match res with
        | some r => some (ainsert tbl' var r, some r)
        | none => some (tbl', some v)

/-- `get_collapsed_var` (with `unwrap_or(var)`), with the canonical fuel;
exhausting the fuel is the embedded counterpart of the Rust stack
overflow on a cyclic collapse table. -/
def getCollapsedRun (tbl : List (Nat × Nat)) (var : Nat) : Run (List (Nat × Nat) × Nat) :=
  match getCollapsedVarOptionalF (tbl.length + 1) tbl var with
  | none => Except.error "stack overflow in get_collapsed_var"
  | some (tbl', res) => Except.ok (tbl', res.getD var)

/-- Scanner state: the live-interval table and the variable-collapse
table (the two fields of the register allocator a block scan borrows
mutably). -/
structure ScanSt where
  intervals : List (Nat × Interval)
  var_collapse : List (Nat × Nat)
deriving DecidableEq, Repr

/-- `BasicBlkIntervals::collapse_var`: redirect every target (after
resolving it) to `var`'s canonical id, asserting `target >= var` and that
the resolved target had no prior entry. -/
def collapse_var_loop (var' : Nat) : List (Nat × Nat) → List Nat → Run (List (Nat × Nat))
  | tbl, [] => Except.ok tbl
  | tbl, target :: rest =>
    if var' ≤ target then
      if target = var' then collapse_var_loop var' tbl rest
      else
        match getCollapsedRun tbl target with
        | Except.error e => Except.error e
        | Except.ok (tbl', t') =>
          match alookup tbl' t' with
          | some _ => Except.error "assertion failed: res.is_none()"
          | none => collapse_var_loop var' (ainsert tbl' t' var') rest
    else Except.error "assertion failed: target >= var"

/-- `BasicBlkIntervals::collapse_var` (entry point: first canonicalize
`var`). -/
def collapse_var (tbl : List (Nat × Nat)) (var : Nat) (targets : List Nat) :
    Run (List (Nat × Nat)) :=
  match getCollapsedRun tbl var with
  | Except.error e => Except.error e
  | Except.ok (tbl', var') => collapse_var_loop var' tbl' targets

/-- The fold inside `collapse_intervals`: remove each remaining group
member's own interval entry (missing entries contribute a point interval
at `default_pos`) and union it in. -/
def collapse_fold (default_pos : Nat) :
    List (Nat × Interval) → Interval → List Nat → List (Nat × Interval) × Interval
  | ivs, acc, [] => (ivs, acc)
  | ivs, acc, k :: rest =>
    let var_interval := (alookup ivs k).getD (Interval.point default_pos)
    collapse_fold default_pos (aerase ivs k) (acc.union var_interval) rest

/-- `BasicBlkIntervals::collapse_intervals`: sort the group, canonicalize
its least member, union the members' intervals under the canonical id and
collapse the rest into it. -/
def collapse_intervals (st : ScanSt) (vars : List Nat) (default_pos : Nat) : Run ScanSt :=
  match stableSortByKey id vars with
  | [] => Except.error "index out of bounds: the len is 0 but the index is 0"
  | v0 :: rest =>
    match getCollapsedRun st.var_collapse v0 with
    | Except.error e => Except.error e
    | Except.ok (tbl, tgt) =>
      let orig := (alookup st.intervals tgt).getD (Interval.point default_pos)
      let ivs0 := ainsert st.intervals tgt orig
      let folded := collapse_fold default_pos ivs0 orig rest
      let ivs1 := ainsert folded.1 tgt folded.2
      match collapse_var tbl tgt rest with
      | Except.error e => Except.error e
      | Except.ok tbl' => Except.ok ⟨ivs1, tbl'⟩

/-- `BasicBlkIntervals::interval_start`: open (or extend the start of)
the canonical variable's interval. -/
def interval_start (st : ScanSt) (var pos : Nat) : Run ScanSt :=
  match getCollapsedRun st.var_collapse var with
  | Except.error e => Except.error e
  | Except.ok (tbl, v) =>
    let ivs :=
      match alookup st.intervals v with
      | some iv => ainsert st.intervals v (iv.update_starting_pos pos)
      | none => ainsert st.intervals v (Interval.point pos)
    Except.ok ⟨ivs, tbl⟩

/-- `BasicBlkIntervals::interval_end`: close (or extend the end of) the
canonical variable's interval. -/
def interval_end (st : ScanSt) (var pos : Nat) : Run ScanSt :=
  match getCollapsedRun st.var_collapse var with
  | Except.error e => Except.error e
  | Except.ok (tbl, v) =>
    let ivs :=
      match alookup st.intervals v with
      | some iv => ainsert st.intervals v (iv.update_ending_pos pos)
      | none => ainsert st.intervals v (Interval.point pos)
    Except.ok ⟨ivs, tbl⟩

/-- `BasicBlkIntervals::var_interval_start`: global targets are ignored,
local ones open an interval. -/
def var_interval_start (st : ScanSt) (val : VarRef) (pos : Nat) : Run ScanSt :=
  match val.ty with
  | VarTy.Global => Except.ok st
  | VarTy.Local => interval_start st val.id pos

/-- `BasicBlkIntervals::value_interval_end`: a read of a local variable
closes its interval; global reads hit `todo!()`. -/
def value_interval_end (st : ScanSt) (val : Value) (pos : Nat) : Run ScanSt :=
  match val with
  | Value.Var v =>
    match v.ty with
    | VarTy.Global => Except.error "not yet implemented"
    | VarTy.Local => interval_end st v.id pos
  | Value.IntImm _ => Except.ok st

/-- One instruction of the scan walk: open the target's interval, then
dispatch on the operation (phi operands merge, `RestRead` hits
`todo!("Unsupported")`). -/
def scan_inst (st : ScanSt) (pos : Nat) (inst : Inst) : Run ScanSt :=
  match var_interval_start st inst.tgt pos with
  | Except.error e => Except.error e
  | Except.ok st =>
    match inst.ins with
    | Ins.TyCon val => value_interval_end st val pos
    | Ins.Asn val => value_interval_end st val pos
    | Ins.Bin _ l r =>
      match value_interval_end st l pos with
      | Except.error e => Except.error e
      | Except.ok st => value_interval_end st r pos
    | Ins.Una _ val => value_interval_end st val pos
    | Ins.Call _ params =>
      params.foldlM (fun st val => value_interval_end st val pos) st
    | Ins.Phi vals =>
      collapse_intervals st
        ((inst.tgt.get_local_id :: vals.map fun k => k.2.get_local_id).reduceOption)
        pos
    | Ins.RestRead _ => Except.error "not yet implemented: Unsupported"

/-- The instruction walk of `scan_intervals`, positions
`offset + index`. -/
def scan_insts (offset : Nat) : ScanSt → Nat → List Inst → Run ScanSt
  | st, _, [] => Except.ok st
  | st, idx, inst :: rest =>
    match scan_inst st (idx + offset) inst with
    | Except.error e => Except.error e
    | Except.ok st' => scan_insts offset st' (idx + 1) rest

/-- `BasicBlkIntervals::scan_intervals`: one block's contribution to the
interval and collapse tables, ending with the stable sort of the interval
table by starting position. -/
def scan_block (st : ScanSt) (offset : Nat) (bb : BasicBlk) (bb_next_vars : List Nat) :
    Run ScanSt :=
  match bb.uses_var.foldlM (fun st var => interval_start st var offset) st with
  | Except.error e => Except.error e
  | Except.ok st =>
    match scan_insts offset st 0 bb.inst with
    | Except.error e => Except.error e
    | Except.ok st =>
      let self_end := offset + bb.inst.length
      let after_term : Run ScanSt :=
        match bb.term with
        | JumpInst.Conditional v _ _ => value_interval_end st v self_end
        | JumpInst.Return (some v) => value_interval_end st v self_end
        | _ => Except.ok st
      match after_term with
      | Except.error e => Except.error e
      | Except.ok st =>
        match bb_next_vars.foldlM (fun st var => interval_end st var (self_end + 1)) st with
        | Except.error e => Except.error e
        | Except.ok st =>
          Except.ok ⟨stableSortByKey (fun p => p.2.lo) st.intervals, st.var_collapse⟩

/-! ## Linearizer (`FnCodegen::arrange_basic_blocks`)

The cycle pre-pass (`util::CycleSolver`, not under `src/`) is passed in
as a counter function; modelled from the spec, it returns for each block
the number of distinct back-edges through it, which is `0` for every
block of a loop-free graph. -/

/-- Build the pending-input counter: one pre-loaded token for the entry
block, plus one per incoming edge recorded in each block's `jump_in`. -/
def bumpCount (m : List (Nat × Int)) (id : Nat) : List (Nat × Int) :=
  match alookup m id with
  | some c => ainsert m id (c + 1)
  | none => ainsert m id 1

/-- The `input_count` table after the initialization loop. -/
def initCounts (bbs : List (Nat × BasicBlk)) : List (Nat × Int) :=
  bbs.foldl (fun m p => p.2.jump_in.foldl (fun m _ => bumpCount m p.1) m) [(0, 1)]

/-- The BFS loop of `arrange_basic_blocks`: pop a block, decrement its
pending-input counter, and emit it (enqueuing its successors) once the
counter has fallen to its cycle count and it has not been emitted before.
The fuel argument only bounds the recursion; `3 * |blocks| + 1` steps are
provably enough (each iteration pops one token, and tokens are only
minted when a block is first emitted). -/
def arrangeLoop (bbs : List (Nat × BasicBlk)) (cyc : Nat → Int) :
    Nat → List Nat → List (Nat × Int) → List Nat → List Nat → Run (List Nat)
  | _, [], _, _, arr => Except.ok arr
  | 0, _ :: _, _, _, _ => Except.error "arrange loop ran out of fuel"
  | fuel + 1, q :: rest, counts, vis, arr =>
    match alookup counts q with
    | none => Except.error "called Option::unwrap on a None value"
    | some c =>
      let c' := c - 1
      let counts' := ainsert counts q c'
      if cyc q < c' then arrangeLoop bbs cyc fuel rest counts' vis arr
      else if q ∈ vis then arrangeLoop bbs cyc fuel rest counts' vis arr
      else
        match alookup bbs q with
        | none => Except.error "called Option::unwrap on a None value"
        | some blk =>
          arrangeLoop bbs cyc fuel (rest ++ blk.term.next_ids) counts' (q :: vis) (arr ++ [q])

/-- `FnCodegen::arrange_basic_blocks`. -/
def arrange_basic_blocks (bbs : List (Nat × BasicBlk)) (cyc : Nat → Int) : Run (List Nat) :=
  arrangeLoop bbs cyc (3 * bbs.length + 1) [0] (initCounts bbs) [] []

/-- `FnCodegen::calc_bb_starting_points`: accumulate
`position += instruction_count + 1` in arrangement order. -/
def calc_bb_starting_points_loop (bbs : List (Nat × BasicBlk)) :
    List Nat → Nat → List (Nat × Nat) → Run (List (Nat × Nat))
  | [], _, sp => Except.ok sp
  | id :: rest, acc, sp =>
    match alookup bbs id with
    | none => Except.error "called Option::unwrap on a None value"
    | some blk =>
      calc_bb_starting_points_loop bbs rest (acc + blk.inst.length + 1) (ainsert sp id acc)

/-- `FnCodegen::calc_bb_starting_points`. -/
def calc_bb_starting_points (bbs : List (Nat × BasicBlk)) (arr : List Nat) :
    Run (List (Nat × Nat)) :=
  calc_bb_starting_points_loop bbs arr 0 []

/-! ## Second-chance bin-packing register allocator -/

/-- The allocator's mutable state (`SecondChanceBinPackingRegAlloc`).
Registers are identified by `Nat`.  `pre_allocated` and `all_used_reg`
are carried for completeness; the given source never writes them. -/
structure AllocSt where
  assignment : List (Nat × Vec1 (Interval × Nat))
  active : List (Nat × Nat)
  spilled : List (Nat × Vec1 Interval)
  pre_allocated : List Nat
  all_used_reg : List Nat
  live_intervals : List (Nat × Interval)
  var_collapse : List (Nat × Nat)
  scratch_register_counter : Nat
deriving DecidableEq, Repr

/-- `SecondChanceBinPackingRegAlloc::new`: everything empty, the scratch
counter at the maximum machine integer. -/
def AllocSt.new : AllocSt :=
  ⟨[], [], [], [], [], [], [], 18446744073709551615⟩

/-- `allocate_register(var, reg, pos, val_interval)`: bind `var` to `reg`.
A variable with assignment history must not already be register-resident
at `pos` (assertion), and if it has (or, for a first binding, had) a spill
record, the new binding's interval is the tail split off the latest spill
interval at `pos`; the pair is registered in the active bimap. -/
def allocate_register (st : AllocSt) (var_id reg pos : Nat) (val_interval : Interval) :
    Run AllocSt :=
  match alookup st.assignment var_id with
  | some v =>
    if v.toList.all fun p => !(p.1.is_inside_write pos) then
      match alookup st.spilled var_id with
      | none => Except.error "called Option::unwrap on a None value"
      | some sp =>
        let new_interval := sp.recent.splitTail pos
        let sp' : Vec1 Interval := ⟨sp.recent.splitKeep pos, sp.older⟩
        Except.ok { st with
          assignment := ainsert st.assignment var_id (v.push (new_interval, reg))
          spilled := ainsert st.spilled var_id sp'
          active := bimapInsert st.active var_id reg }
    else Except.error "No duplicate allocations"
  | none =>
    match alookup st.spilled var_id with
    | some sp =>
      let interval := sp.recent.splitTail pos
      let sp' : Vec1 Interval := ⟨sp.recent.splitKeep pos, sp.older⟩
      Except.ok { st with
        assignment := ainsert st.assignment var_id (Vec1.one (interval, reg))
        spilled := ainsert st.spilled var_id sp'
        active := bimapInsert st.active var_id reg }
    | none =>
      Except.ok { st with
        assignment := ainsert st.assignment var_id (Vec1.one (val_interval, reg))
        active := bimapInsert st.active var_id reg }

/-- `spill_var(var, pos)`: truncate the latest register-resident interval
at `pos`, append the freed tail to the spill history, and deactivate the
variable; a variable with no assignment history is an internal error. -/
def spill_var (st : AllocSt) (var_id pos : Nat) : Run AllocSt :=
  match alookup st.assignment var_id with
  | some v =>
    let new_interval := v.recent.1.splitTail pos
    let v' : Vec1 (Interval × Nat) := ⟨(v.recent.1.splitKeep pos, v.recent.2), v.older⟩
    let spilled' :=
      match alookup st.spilled var_id with
      | some sp => ainsert st.spilled var_id (sp.push new_interval)
      | none => ainsert st.spilled var_id (Vec1.one new_interval)
    Except.ok { st with
      assignment := ainsert st.assignment var_id v'
      spilled := spilled'
      active := bimapRemoveLeft st.active var_id }
  | none => Except.error "The variable is not allocated!"

/-- `spill_reg(reg, pos)`: spill whichever variable currently occupies
`reg`. -/
def spill_reg (st : AllocSt) (reg pos : Nat) : Run AllocSt :=
  match bimapGetRight st.active reg with
  | none => Except.error "Unknown register"
  | some var_id => spill_var st var_id pos

/-- The kind-and-pool filter of `choose_spill_register`; looking up an
active variable missing from the variable table is the embedded `unwrap`
panic. -/
def spill_candidates (var_table : List (Nat × VarDecl)) (allowed : List Nat) :
    List (Nat × Nat) → Run (List (Nat × Nat))
  | [] => Except.ok []
  | (v, r) :: rest =>
    match alookup var_table v with
    | none => Except.error "called Option::unwrap on a None value"
    | some d =>
      match spill_candidates var_table allowed rest with
      | Except.error e => Except.error e
      | Except.ok rest' =>
        if (d.kind ≠ VarKind.FixedTemp ∧ d.kind ≠ VarKind.Ret) ∧ r ∈ allowed then
          Except.ok ((v, r) :: rest')
        else Except.ok rest'

/-- `choose_spill_register`: among active, non-pinned variables whose
register lies in the allowed pool, pick the one with the longest total
live interval (stable sort ascending, take the last). -/
def choose_spill_register (src : Func) (st : AllocSt) (allowed : List Nat) :
    Run (Option Nat) :=
  match spill_candidates src.var_table allowed st.active with
  | Except.error e => Except.error e
  | Except.ok regs =>
    let sorted := stableSortByKey
      (fun p => ((alookup st.live_intervals p.1).map Interval.len).getD 0) regs
    Except.ok (sorted.getLast?.map Prod.snd)

/-- `find_allocate_or_spill`: return the active register, else claim the
first free register of the allowed pool, else spill the chosen victim and
claim its register; no eligible victim is a fatal internal error. -/
def find_allocate_or_spill (src : Func) (st : AllocSt) (var_id : Nat) (allowed : List Nat)
    (interval : Interval) (pos : Nat) : Run (Nat × AllocSt) :=
  match bimapGetLeft st.active var_id with
  | some reg => Except.ok (reg, st)
  | none =>
    match allowed.find? fun reg => !bimapContainsRight st.active reg with
    | some reg =>
      match allocate_register st var_id reg pos interval with
      | Except.error e => Except.error e
      | Except.ok st' => Except.ok (reg, st')
    | none =>
      match choose_spill_register src st allowed with
      | Except.error e => Except.error e
      | Except.ok (some reg) =>
        match spill_reg st reg pos with
        | Except.error e => Except.error e
        | Except.ok st' =>
          match allocate_register st' var_id reg pos interval with
          | Except.error e => Except.error e
          | Except.ok st'' => Except.ok (reg, st'')
      | Except.ok none => Except.error "No register to spill! This is an internal error"

/-- `revive(var, pos)`: split the latest spill interval at `pos` and
return the freed tail; no spill record, or a read outside the latest
spill interval, is an internal error. -/
def revive (st : AllocSt) (var_id pos : Nat) : Run (Interval × AllocSt) :=
  match alookup st.spilled var_id with
  | none => Except.error "The variable is not spilled"
  | some sp =>
    if sp.recent.alive_for_reading pos then
      Except.ok (sp.recent.splitTail pos,
        { st with spilled := ainsert st.spilled var_id ⟨sp.recent.splitKeep pos, sp.older⟩ })
    else Except.error "Reading variable outside live interval"

/-- `request_read_allocation(var, pos)`: the register of the latest
assignment if it is still valid for reading, otherwise revive from the
spill record and allocate from the general variable pool. -/
def request_read_allocation (src : Func) (pools : RegPools) (st : AllocSt) (var_id pos : Nat) :
    Run (Nat × AllocSt) :=
  match alookup st.assignment var_id with
  | none => Except.error "Read variable before write!"
  | some v =>
    if v.recent.1.alive_for_reading pos then Except.ok (v.recent.2, st)
    else
      match revive st var_id pos with
      | Except.error e => Except.error e
      | Except.ok (new_interval, st1) =>
        match find_allocate_or_spill src st1 var_id pools.variable_registers new_interval pos with
        | Except.error e => Except.error e
        | Except.ok (reg, st2) =>
          match allocate_register st2 var_id reg pos new_interval with
          | Except.error e => Except.error e
          | Except.ok st3 => Except.ok (reg, st3)

/-- `request_write_allocation(var, pos, interval)`. -/
def request_write_allocation (src : Func) (pools : RegPools) (st : AllocSt) (var_id pos : Nat)
    (interval : Interval) : Run (Nat × AllocSt) :=
  match alookup st.assignment var_id with
  | some v =>
    if v.recent.1.alive_for_reading pos then Except.ok (v.recent.2, st)
    else
      match revive st var_id pos with
      | Except.error e => Except.error e
      | Except.ok (interval', st1) =>
        find_allocate_or_spill src st1 var_id pools.variable_registers interval' pos
  | none => find_allocate_or_spill src st var_id pools.variable_registers interval pos

/-- `request_scratch_register(pos)`: a point-lived allocation under a
freshly minted synthetic id drawn downward from the counter. -/
def request_scratch_register (src : Func) (pools : RegPools) (st : AllocSt) (pos : Nat) :
    Run (Nat × AllocSt) :=
  let var_id := st.scratch_register_counter
  let st' := { st with scratch_register_counter := var_id - 1 }
  find_allocate_or_spill src st' var_id pools.scratch_registers (Interval.point pos) pos

/-- `request_allocate_memory`: thin wrapper over `spill_var`. -/
def request_allocate_memory (st : AllocSt) (var_id pos : Nat) : Run AllocSt :=
  spill_var st var_id pos

/-- `force_free_register`: thin wrapper over `spill_reg`. -/
def force_free_register (st : AllocSt) (reg pos : Nat) : Run AllocSt :=
  spill_reg st reg pos

/-- `FnCodegen::set_param_and_ret_registers`: walk the variable table in
declaration order, binding `Param` variables to successive parameter
registers while `param_register_size + register_count` stays below the
size of the *result* register pool (this comparison is taken verbatim
from the source), spilling the rest, and binding every `Ret` variable to
the first result register. -/
def set_param_and_ret_loop (pools : RegPools) :
    List (Nat × VarDecl) → Nat → AllocSt → Run AllocSt
  | [], _, st => Except.ok st
  | (idx, var) :: rest, prs, st =>
    if var.kind = VarKind.Param then
      if var.ty.require_double_registers then
        Except.error "not yet implemented: Support doubles"
      else if prs + var.ty.register_count < pools.result_registers.length then
        if var.ty.register_count = 1 then
          match pools.param_registers.get? prs with
          | none => Except.error "called Option::unwrap on a None value"
          | some reg =>
            match alookup st.live_intervals idx with
            | none => Except.error "called Option::unwrap on a None value"
            | some iv =>
              match allocate_register st idx reg 0 iv with
              | Except.error e => Except.error e
              | Except.ok st' => set_param_and_ret_loop pools rest (prs + 1) st'
        else Except.error "assertion failed: only int-s are supported"
      else
        match spill_var st idx 0 with
        | Except.error e => Except.error e
        | Except.ok st' => set_param_and_ret_loop pools rest prs st'
    else if var.kind = VarKind.Ret then
      if var.ty.require_double_registers then
        Except.error "not yet implemented: Support doubles"
      else if var.ty.register_count = 1 then
        match pools.result_registers.get? 0 with
        | none => Except.error "called Option::unwrap on a None value"
        | some reg =>
          match alookup st.live_intervals idx with
          | none => Except.error "called Option::unwrap on a None value"
          | some iv =>
            match allocate_register st idx reg 0 iv with
            | Except.error e => Except.error e
            | Except.ok st' => set_param_and_ret_loop pools rest prs st'
      else Except.error "assertion failed: only int-s are supported"
    else set_param_and_ret_loop pools rest prs st

/-- `FnCodegen::set_param_and_ret_registers`. -/
def set_param_and_ret_registers (pools : RegPools) (src : Func) (st : AllocSt) : Run AllocSt :=
  set_param_and_ret_loop pools src.var_table 0 st

/-! ## Per-function driver (`FnCodegen`) -/

/-- The codegen state a finished `FnCodegen::gen` leaves behind. -/
structure FnSt where
  bb_arrangement : List Nat
  bb_start_pos : List (Nat × Nat)
  reg_alloc : AllocSt
deriving DecidableEq, Repr

/-- The per-block body of `FnCodegen::scan_intervals`: look up the block,
its starting position and its successors' `uses_var` sets, then scan. -/
def fn_scan_one (src : Func) (sp : List (Nat × Nat)) (st : ScanSt) (id : Nat) : Run ScanSt :=
  match alookup src.bb id with
  | none => Except.error "called Option::unwrap on a None value"
  | some bb =>
    match alookup sp id with
    | none => Except.error "called Option::unwrap on a None value"
    | some offset =>
      match bb.term.next_ids.foldlM
          (fun acc n =>
            match alookup src.bb n with
            | none => Except.error "called Option::unwrap on a None value"
            | some nb => Except.ok (acc ++ nb.uses_var)) ([] : List Nat) with
      | Except.error e => Except.error e
      | Except.ok next_vars => scan_block st offset bb next_vars

/-- `FnCodegen::scan_intervals`: arrange the blocks, compute starting
positions, and scan every arranged block in order. -/
def fn_scan_intervals (src : Func) (cyc : Nat → Int) :
    Run (List Nat × List (Nat × Nat) × ScanSt) :=
  match arrange_basic_blocks src.bb cyc with
  | Except.error e => Except.error e
  | Except.ok arr =>
    match calc_bb_starting_points src.bb arr with
    | Except.error e => Except.error e
    | Except.ok sp =>
      match arr.foldlM (fn_scan_one src sp) (⟨[], []⟩ : ScanSt) with
      | Except.error e => Except.error e
      | Except.ok scan => Except.ok (arr, sp, scan)

/-- `FnCodegen::assign_registers` is an empty body. -/
def assign_registers (st : FnSt) : FnSt := st

/-- `FnCodegen::gen_assembly` is an empty body. -/
def gen_assembly (st : FnSt) : FnSt := st

/-- `FnCodegen::gen`: runs exactly `scan_intervals`, leaving the
allocator freshly constructed except for the live-interval and collapse
tables the scanner filled in. -/
def FnCodegen_gen (src : Func) (cyc : Nat → Int) : Run FnSt :=
  match fn_scan_intervals src cyc with
  | Except.error e => Except.error e
  | Except.ok (arr, sp, scan) =>
    Except.ok ⟨arr, sp,
      { AllocSt.new with
        live_intervals := scan.intervals
        var_collapse := scan.var_collapse }⟩

/-! ## Control-flow-graph notions used to state the linearizer claims -/

/-- The edge relation of a function's control-flow graph: `a` jumps to
`b` through its terminator. -/
def edgeB (bbs : List (Nat × BasicBlk)) (a b : Nat) : Bool :=
  match alookup bbs a with
  | some blk => decide (b ∈ blk.term.next_ids)
  | none => false

/-- Reachability from the entry block `0`. -/
def Reach (bbs : List (Nat × BasicBlk)) (b : Nat) : Prop :=
  Relation.ReflTransGen (fun x y => edgeB bbs x y = true) 0 b

/-- The predecessors of `b` among the declared block ids. -/
def preds (bbs : List (Nat × BasicBlk)) (b : Nat) : List Nat :=
  (akeys bbs).filter fun a => edgeB bbs a b

/-- The invariant of the linearizer's BFS loop: the emitted prefix is
duplicate-free and topologically closed, queued ids are declared blocks,
and every block's pending-input counter equals its queued-token count
plus its number of not-yet-emitted predecessors (and, while unemitted,
is either still pristine or positive). -/
structure LoopInv (bbs : List (Nat × BasicBlk)) (queue : List Nat)
    (counts : List (Nat × Int)) (vis arr : List Nat) : Prop where
  visEq : vis = arr.reverse
  nodup : arr.Nodup
  arrKeys : ∀ b ∈ arr, b ∈ akeys bbs
  topo : ∀ a b, edgeB bbs a b = true → b ∈ arr → a ∈ arr ∧ arr.indexOf a < arr.indexOf b
  queueKeys : ∀ q ∈ queue, q ∈ akeys bbs
  pending : ∀ b ∈ akeys bbs, alookup counts b =
    some ((queue.count b : Int) + (((preds bbs b).filter fun x => decide (x ∉ vis)).length : Int))
  fresh : ∀ b ∈ akeys bbs, b ∉ vis →
    alookup counts b =
        some (((preds bbs b).length : Int) + (if b = 0 then 1 else 0)) ∨
    ∃ c, alookup counts b = some c ∧ 1 ≤ c

/-- The loop-free diamond graph `{0→1, 0→2, 1→3, 2→3}` of the concrete
linearizer scenario. -/
def diamondBbs : List (Nat × BasicBlk) :=
  [(0, ⟨[], JumpInst.Conditional (Value.IntImm 0) 1 2, [], []⟩),
   (1, ⟨[], JumpInst.Jump 3, [0], []⟩),
   (2, ⟨[], JumpInst.Jump 3, [0], []⟩),
   (3, ⟨[], JumpInst.Return none, [1, 2], []⟩)]

/-- A loop-free graph in which the reachable block `2` has the
unreachable predecessor `1` (`jump_in` is consistent with the
terminators): `0 → 2` and `1 → 2`, nothing jumps to `1`. -/
def strandedBbs : List (Nat × BasicBlk) :=
  [(0, ⟨[], JumpInst.Jump 2, [], []⟩),
   (1, ⟨[], JumpInst.Jump 2, [], []⟩),
   (2, ⟨[], JumpInst.Return none, [0, 1], []⟩)]

/-! ## Allocator call sequences (used to state the exclusivity claims) -/

/-- One public call into the register allocator. -/
inductive AllocCall : Type
  | allocateRegister : Nat → Nat → Nat → Interval → AllocCall
  | spillVar : Nat → Nat → AllocCall
  | spillReg : Nat → Nat → AllocCall
  | requestRead : Nat → Nat → AllocCall
  | requestWrite : Nat → Nat → Interval → AllocCall
  | requestScratch : Nat → AllocCall
  | requestAllocateMemory : Nat → Nat → AllocCall
  | forceFreeRegister : Nat → Nat → AllocCall
deriving DecidableEq, Repr

/-- Execute one public allocator call (returned registers are
discarded; only the state evolution matters for the invariants). -/
def allocStep (src : Func) (pools : RegPools) (st : AllocSt) : AllocCall → Run AllocSt
  | AllocCall.allocateRegister v r pos iv => allocate_register st v r pos iv
  | AllocCall.spillVar v pos => spill_var st v pos
  | AllocCall.spillReg r pos => spill_reg st r pos
  | AllocCall.requestRead v pos =>
    (request_read_allocation src pools st v pos).map Prod.snd
  | AllocCall.requestWrite v pos iv =>
    (request_write_allocation src pools st v pos iv).map Prod.snd
  | AllocCall.requestScratch pos =>
    (request_scratch_register src pools st pos).map Prod.snd
  | AllocCall.requestAllocateMemory v pos => request_allocate_memory st v pos
  | AllocCall.forceFreeRegister r pos => force_free_register st r pos

/-- Execute a sequence of public allocator calls from a given state. -/
def runCalls (src : Func) (pools : RegPools) : AllocSt → List AllocCall → Run AllocSt
  | st, [] => Except.ok st
  | st, c :: rest =>
    match allocStep src pools st c with
    | Except.error e => Except.error e
    | Except.ok st' => runCalls src pools st' rest

/-- The bidirectional-map exclusivity invariant of the active set: no
variable and no register occurs in two pairs. -/
def ActiveOk (st : AllocSt) : Prop :=
  (st.active.map Prod.fst).Nodup ∧ (st.active.map Prod.snd).Nodup

/-! ## Spec-side position arithmetic (used to state the position claims) -/

/-- Instruction count of a declared block (`0` for an undeclared id;
the claims only use it on declared ids). -/
def instLen (bbs : List (Nat × BasicBlk)) (id : Nat) : Nat :=
  ((alookup bbs id).map fun b => b.inst.length).getD 0

/-- The spec's starting position of the `i`-th arranged block: the sum of
`instruction count + 1` over all prior arranged blocks. -/
def sumPrior (bbs : List (Nat × BasicBlk)) (arr : List Nat) (i : Nat) : Nat :=
  ((arr.take i).map fun id => instLen bbs id + 1).sum

/-! ## Concrete inputs for the individual claims -/

/-- A function with three `Param`-kind int variables and no blocks. -/
def c1Func : Func :=
  ⟨[], [(0, ⟨VarKind.Param, Ty.int⟩), (1, ⟨VarKind.Param, Ty.int⟩),
        (2, ⟨VarKind.Param, Ty.int⟩)]⟩

/-- Pools with two parameter registers; the result pool has three
entries so that the source's (result-pool-based) bound admits exactly
two parameters, matching the claimed scenario of a parameter pool of
size two. -/
def c1Pools : RegPools := ⟨[10, 11], [20, 21, 22], [], []⟩

/-- Pools with two parameter registers but a single result register. -/
def c1PoolsSmall : RegPools := ⟨[10, 11], [20], [], []⟩

/-- Allocator state holding live intervals for the three parameters. -/
def c1Alloc : AllocSt :=
  { AllocSt.new with
    live_intervals := [(0, ⟨0, 4⟩), (1, ⟨0, 5⟩), (2, ⟨0, 6⟩)] }

/-- A block with two phi instructions sharing operands: `3 ← φ(2)`
followed by `7 ← φ(2, 3)`. -/
def c3Blk : BasicBlk :=
  ⟨[⟨⟨VarTy.Local, 3⟩, Ins.Phi [(0, ⟨VarTy.Local, 2⟩)]⟩,
    ⟨⟨VarTy.Local, 7⟩, Ins.Phi [(0, ⟨VarTy.Local, 2⟩), (1, ⟨VarTy.Local, 3⟩)]⟩],
   JumpInst.Return none, [], []⟩

/-- A block with two phi instructions sharing operands: `5 ← φ(1)`
followed by `6 ← φ(1, 5)`. -/
def c7Blk : BasicBlk :=
  ⟨[⟨⟨VarTy.Local, 5⟩, Ins.Phi [(0, ⟨VarTy.Local, 1⟩)]⟩,
    ⟨⟨VarTy.Local, 6⟩, Ins.Phi [(0, ⟨VarTy.Local, 1⟩), (1, ⟨VarTy.Local, 5⟩)]⟩],
   JumpInst.Return none, [], []⟩

/-- A block containing a `RestRead` instruction. -/
def c8RestBlk : BasicBlk :=
  ⟨[⟨⟨VarTy.Local, 1⟩, Ins.RestRead 0⟩], JumpInst.Return none, [], []⟩

/-- A block reading a global variable. -/
def c8GlobBlk : BasicBlk :=
  ⟨[⟨⟨VarTy.Local, 1⟩, Ins.Asn (Value.Var ⟨VarTy.Global, 0⟩)⟩],
   JumpInst.Return none, [], []⟩

/-- A function whose single parameter is double-register wide. -/
def c8DoubleFunc : Func := ⟨[], [(0, ⟨VarKind.Param, Ty.double⟩)]⟩

/-- The allocator state after `allocate_register(1, 7, 0, [0,10])`
followed by `allocate_register(2, 7, 5, [5,8])`. -/
def c6CexSt : AllocSt :=
  { AllocSt.new with
    assignment := [(1, Vec1.one (⟨0, 10⟩, 7)), (2, Vec1.one (⟨5, 8⟩, 7))]
    active := [(2, 7)] }

/-- A function declaring a spillable local and a pinned return variable. -/
def c5Src : Func :=
  ⟨[], [(1, ⟨VarKind.Local, Ty.int⟩), (2, ⟨VarKind.Ret, Ty.int⟩)]⟩

/-- Allocator state with both variables active. -/
def c5St : AllocSt :=
  { AllocSt.new with
    active := [(1, 4), (2, 5)]
    live_intervals := [(1, ⟨0, 9⟩), (2, ⟨0, 99⟩)] }

/-- A two-block function with instructions, for the position claims. -/
def c9Bbs : List (Nat × BasicBlk) :=
  [(0, ⟨[⟨⟨VarTy.Local, 1⟩, Ins.Asn (Value.IntImm 3)⟩,
         ⟨⟨VarTy.Local, 2⟩, Ins.Asn (Value.Var ⟨VarTy.Local, 1⟩)⟩],
        JumpInst.Jump 1, [], []⟩),
   (1, ⟨[⟨⟨VarTy.Local, 3⟩, Ins.Asn (Value.Var ⟨VarTy.Local, 2⟩)⟩],
        JumpInst.Return none, [0], []⟩)]

/-- A single-block function on which the whole `gen` pipeline runs. -/
def c10Func : Func :=
  ⟨[(0, ⟨[⟨⟨VarTy.Local, 1⟩, Ins.Asn (Value.IntImm 3)⟩],
         JumpInst.Return (some (Value.Var ⟨VarTy.Local, 1⟩)), [], []⟩)],
   [(1, ⟨VarKind.Local, Ty.int⟩)]⟩

/-! # Theorems -/

/-- C1: the claimed parameter binding fails on the code.  With three
declared int parameters, a parameter pool `[10, 11]` of size two and a
result pool of three registers (the source bounds the binding loop by
the *result* pool size, so this is the configuration that admits exactly
two parameter bindings), the first two parameters are bound to registers
10 and 11 at position 0, but binding the third parameter panics inside
`spill_var` ("The variable is not allocated!") instead of recording a
spill: a parameter that never had a register has no assignment entry to
split.  With a single result register the very first parameter already
takes the spill path and panics, even though the parameter pool has two
free registers. -/
theorem c1_param_binding_panics :
    (set_param_and_ret_loop c1Pools (c1Func.var_table.take 2) 0 c1Alloc).map
        (fun st => (alookup st.assignment 0, alookup st.assignment 1, st.spilled)) =
      Except.ok (some (Vec1.one (⟨0, 4⟩, 10)), some (Vec1.one (⟨0, 5⟩, 11)), []) ∧
    set_param_and_ret_registers c1Pools c1Func c1Alloc =
      Except.error "The variable is not allocated!" ∧
    set_param_and_ret_loop c1PoolsSmall (c1Func.var_table.take 1) 0 c1Alloc =
      Except.error "The variable is not allocated!" := by
  refine ⟨rfl, rfl, rfl⟩

/-- C3: phi merging breaks once phi groups overlap.  Scanning the block
`[3 ← φ(2); 7 ← φ(2, 3)]` makes the second collapse insert the self-loop
`2 ↦ 2` into the collapse table (the assertion checks the raw target,
not its canonical id), after which resolving either operand 2 or
operand 3 of the second phi through the collapse table does not yield a
canonical id at all: the chase recursion never terminates (embedded as
the fuel-exhaustion error standing for the Rust stack overflow). -/
theorem c3_phi_resolution_diverges :
    scan_block ⟨[], []⟩ 0 c3Blk [] =
      Except.ok ⟨[(2, ⟨0, 1⟩)], [(3, 2), (2, 2), (7, 2)]⟩ ∧
    getCollapsedRun [(3, 2), (2, 2), (7, 2)] 2 =
      Except.error "stack overflow in get_collapsed_var" ∧
    getCollapsedRun [(3, 2), (2, 2), (7, 2)] 3 =
      Except.error "stack overflow in get_collapsed_var" := by
  refine ⟨rfl, rfl, rfl⟩

/-- C7: the union-find invariant is not preserved by collapses.
Scanning the block `[5 ← φ(1); 6 ← φ(1, 5)]` leaves the collapse table
`{5 ↦ 1, 1 ↦ 1, 6 ↦ 1}`: the entry `1 ↦ 1` maps an id to a target that
is not numerically smaller, and chain-following from 1 no longer
terminates (embedded as the fuel-exhaustion error standing for the Rust
stack overflow). -/
theorem c7_collapse_invariant_broken :
    scan_block ⟨[], []⟩ 0 c7Blk [] =
      Except.ok ⟨[(1, ⟨0, 1⟩)], [(5, 1), (1, 1), (6, 1)]⟩ ∧
    ¬ (∀ p ∈ [(5, 1), (1, 1), (6, 1)], Prod.snd p < Prod.fst p) ∧
    getCollapsedRun [(5, 1), (1, 1), (6, 1)] 1 =
      Except.error "stack overflow in get_collapsed_var" := by
  refine ⟨rfl, by decide, rfl⟩

/-- C8: each of the three unsupported constructs (a `RestRead`
instruction, a global-variable read tracked for intervals, and a
double-register-wide parameter) aborts with a panic payload carrying the
`todo!` prefix "not yet implemented", while the internal-error panics
(spilling an unallocated variable, reviving an unspilled one) carry
payloads without that prefix — so the two failure classes are
distinguishable by the panic payload. -/
theorem c8_unsupported_distinct :
    (scan_block ⟨[], []⟩ 0 c8RestBlk [] =
        Except.error "not yet implemented: Unsupported" ∧
      "not yet implemented".data.isPrefixOf "not yet implemented: Unsupported".data = true) ∧
    (scan_block ⟨[], []⟩ 0 c8GlobBlk [] = Except.error "not yet implemented" ∧
      "not yet implemented".data.isPrefixOf "not yet implemented".data = true) ∧
    (set_param_and_ret_registers c1Pools c8DoubleFunc AllocSt.new =
        Except.error "not yet implemented: Support doubles" ∧
      "not yet implemented".data.isPrefixOf "not yet implemented: Support doubles".data = true) ∧
    (spill_var AllocSt.new 0 0 = Except.error "The variable is not allocated!" ∧
      "not yet implemented".data.isPrefixOf "The variable is not allocated!".data = false) ∧
    (revive AllocSt.new 0 0 = Except.error "The variable is not spilled" ∧
      "not yet implemented".data.isPrefixOf "The variable is not spilled".data = false) := by
  refine ⟨⟨rfl, by decide⟩, ⟨rfl, by decide⟩, ⟨rfl, by decide⟩, ⟨rfl, by decide⟩,
    ⟨rfl, by decide⟩⟩

/-- C2, counterexample: the linearizer can drop a reachable block.  In
`strandedBbs` the reachable block 2 (the entry jumps straight to it) has
the unreachable predecessor 1, whose pending-input token never arrives,
so the arrangement is just `[0]` — block 2 is reachable yet excluded,
falsifying the coverage clause. -/
theorem c2_linearizer_counterexample :
    arrange_basic_blocks strandedBbs (fun _ => 0) = Except.ok [0] ∧
    Reach strandedBbs 2 ∧
    2 ∈ akeys strandedBbs ∧
    2 ∉ ([0] : List Nat) := by
  refine ⟨rfl, Relation.ReflTransGen.single (by decide), by decide, by decide⟩

/-- C6, counterexample: the assignment-table half of register
exclusivity fails.  The public call sequence
`allocate_register(1, 7, 0, [0,10]); allocate_register(2, 7, 5, [5,8])`
succeeds (the second insert merely evicts variable 1 from the Active
map), leaving two distinct variables with assignment entries on the same
register 7 whose intervals both contain position 6. -/
theorem c6_register_overlap_counterexample :
    runCalls ⟨[], []⟩ ⟨[], [], [], []⟩ AllocSt.new
        [AllocCall.allocateRegister 1 7 0 ⟨0, 10⟩,
         AllocCall.allocateRegister 2 7 5 ⟨5, 8⟩] = Except.ok c6CexSt ∧
    alookup c6CexSt.assignment 1 = some (Vec1.one (⟨0, 10⟩, 7)) ∧
    alookup c6CexSt.assignment 2 = some (Vec1.one (⟨5, 8⟩, 7)) ∧
    Interval.alive_for_reading ⟨0, 10⟩ 6 = true ∧
    Interval.alive_for_reading ⟨5, 8⟩ 6 = true ∧
    (1 : Nat) ≠ 2 := by
  refine ⟨rfl, rfl, rfl, rfl, rfl, by decide⟩

/-! ## Association-list lemmas -/

theorem alookup_ainsert_self {α : Type} (l : List (Nat × α)) (k : Nat) (v : α) :
    alookup (ainsert l k v) k = some v := by
  induction l with
  | nil => simp [ainsert, alookup]
  | cons p rest ih =>
    obtain ⟨k0, v0⟩ := p
    by_cases h : k0 = k
    · subst h; simp [ainsert, alookup]
    · simp [ainsert, alookup, h, ih]

theorem alookup_ainsert_ne {α : Type} (l : List (Nat × α)) (k : Nat) (v : α) (k' : Nat)
    (h : k' ≠ k) : alookup (ainsert l k v) k' = alookup l k' := by
  have h2 : k ≠ k' := Ne.symm h
  induction l with
  | nil => simp [ainsert, alookup, h2]
  | cons p rest ih =>
    obtain ⟨k0, v0⟩ := p
    by_cases h0 : k0 = k
    · subst h0
      simp [ainsert, alookup, h2]
    · by_cases h1 : k0 = k'
      · subst h1; simp [ainsert, alookup, h0]
      · simp [ainsert, alookup, h0, h1, ih]

theorem mem_akeys_of_alookup {α : Type} {l : List (Nat × α)} {k : Nat} {v : α}
    (h : alookup l k = some v) : k ∈ akeys l := by
  induction l with
  | nil => simp [alookup] at h
  | cons p rest ih =>
    obtain ⟨k0, v0⟩ := p
    by_cases h0 : k0 = k
    · subst h0; simp [akeys]
    · simp only [alookup, h0, if_false] at h
      simp [akeys] at ih ⊢
      exact Or.inr (ih h)

theorem alookup_isSome_of_mem_akeys {α : Type} {l : List (Nat × α)} {k : Nat}
    (h : k ∈ akeys l) : ∃ v, alookup l k = some v := by
  induction l with
  | nil => simp [akeys] at h
  | cons p rest ih =>
    obtain ⟨k0, v0⟩ := p
    by_cases h0 : k0 = k
    · subst h0; exact ⟨v0, by simp [alookup]⟩
    · have hk : k ∈ akeys rest := by
        rcases (by simpa [akeys] using h : k = k0 ∨ k ∈ akeys rest) with e | m
        · exact absurd e.symm h0
        · exact m
      obtain ⟨v, hv⟩ := ih hk
      exact ⟨v, by simp [alookup, h0, hv]⟩

/-! ## Small list lemmas -/

theorem mem_insertSorted {α : Type} (key : α → Nat) (x a : α) :
    ∀ l : List α, a ∈ insertSorted key x l ↔ a = x ∨ a ∈ l := by
  intro l
  induction l with
  | nil => simp [insertSorted]
  | cons y ys ih =>
    by_cases h : key y ≤ key x
    · simp only [insertSorted, if_pos h, List.mem_cons, ih]
      tauto
    · simp only [insertSorted, if_neg h, List.mem_cons]

theorem mem_stableSortByKey {α : Type} (key : α → Nat) (a : α) (l : List α) :
    a ∈ stableSortByKey key l ↔ a ∈ l := by
  suffices h : ∀ l acc : List α,
      (a ∈ l.foldl (fun acc x => insertSorted key x acc) acc ↔ a ∈ acc ∨ a ∈ l) by
    have := h l []
    simpa [stableSortByKey] using this
  intro l
  induction l with
  | nil => intro acc; simp
  | cons x xs ih =>
    intro acc
    simp only [List.foldl_cons, ih, mem_insertSorted, List.mem_cons]
    tauto

theorem mem_of_getLast? {α : Type} {l : List α} {a : α} (h : l.getLast? = some a) :
    a ∈ l := by
  induction l with
  | nil => simp [List.getLast?] at h
  | cons x xs ih =>
    cases xs with
    | nil =>
      simp [List.getLast?] at h
      simp [h]
    | cons y ys =>
      rw [List.getLast?_cons_cons] at h
      exact List.mem_cons_of_mem x (ih h)

theorem eq_fst_of_snd_nodup {l : List (Nat × Nat)} (h : (l.map Prod.snd).Nodup)
    {v1 v2 r : Nat} (h1 : (v1, r) ∈ l) (h2 : (v2, r) ∈ l) : v1 = v2 := by
  induction l with
  | nil => simp at h1
  | cons p rest ih =>
    obtain ⟨a, b⟩ := p
    simp only [List.map_cons, List.nodup_cons] at h
    rcases List.mem_cons.mp h1 with e1 | m1 <;> rcases List.mem_cons.mp h2 with e2 | m2
    · have q1 := congrArg Prod.fst e1
      have q2 := congrArg Prod.fst e2
      simp only at q1 q2
      rw [q1, q2]
    · exfalso
      apply h.1
      have hb : b = r := (congrArg Prod.snd e1).symm
      subst hb
      exact List.mem_map.mpr ⟨(v2, b), m2, rfl⟩
    · exfalso
      apply h.1
      have hb : b = r := (congrArg Prod.snd e2).symm
      subst hb
      exact List.mem_map.mpr ⟨(v1, b), m1, rfl⟩
    · exact ih h.2 m1 m2

/-! ## C10: gen() only linearizes and scans intervals -/

/-- C10: after `FnCodegen::gen` succeeds, the allocator's assignment
table, spill table and active map are all empty (the scanner only fills
the live-interval and collapse tables), and the register-assignment and
assembly-emission phases are literal no-ops — so the public per-function
pipeline never binds a register. -/
theorem c10_gen_frame (src : Func) (cyc : Nat → Int) (st : FnSt)
    (h : FnCodegen_gen src cyc = Except.ok st) :
    st.reg_alloc.assignment = [] ∧ st.reg_alloc.spilled = [] ∧
    st.reg_alloc.active = [] ∧ assign_registers st = st ∧ gen_assembly st = st := by
  unfold FnCodegen_gen at h
  cases hfs : fn_scan_intervals src cyc with
  | error e => rw [hfs] at h; exact Except.noConfusion h
  | ok triple =>
    obtain ⟨arr, sp, scan⟩ := triple
    rw [hfs] at h
    simp only [Except.ok.injEq] at h
    subst h
    exact ⟨rfl, rfl, rfl, rfl, rfl⟩

/-- Witness for C10 at the one-block function `c10Func`. -/
theorem c10_gen_frame_witness :
    FnCodegen_gen c10Func (fun _ => 0) =
      Except.ok ⟨[0], [(0, 0)],
        ⟨[], [], [], [], [], [(1, ⟨0, 1⟩)], [], 18446744073709551615⟩⟩ ∧
    (FnSt.reg_alloc ⟨[0], [(0, 0)],
        ⟨[], [], [], [], [], [(1, ⟨0, 1⟩)], [], 18446744073709551615⟩⟩).assignment = [] := by
  have h : FnCodegen_gen c10Func (fun _ => 0) =
      Except.ok ⟨[0], [(0, 0)],
        ⟨[], [], [], [], [], [(1, ⟨0, 1⟩)], [], 18446744073709551615⟩⟩ := rfl
  exact ⟨h, (c10_gen_frame c10Func (fun _ => 0) _ h).1⟩

/-! ## C9: starting positions -/

theorem sumPrior_succ (bbs : List (Nat × BasicBlk)) (arr : List Nat) (i : Nat)
    (h : i < arr.length) :
    sumPrior bbs arr (i + 1) =
      sumPrior bbs arr i + (instLen bbs (arr.get ⟨i, h⟩) + 1) := by
  unfold sumPrior
  rw [List.take_succ, List.getElem?_eq_getElem h, List.map_append, List.sum_append]
  simp [List.get_eq_getElem]

theorem sumPrior_lt_succ (bbs : List (Nat × BasicBlk)) (arr : List Nat) (i : Nat)
    (h : i < arr.length) : sumPrior bbs arr i < sumPrior bbs arr (i + 1) := by
  rw [sumPrior_succ bbs arr i h]
  omega

theorem sumPrior_strict_mono (bbs : List (Nat × BasicBlk)) (arr : List Nat) :
    ∀ i j, i < j → j ≤ arr.length → sumPrior bbs arr i < sumPrior bbs arr j := by
  intro i j
  induction j with
  | zero => omega
  | succ n ih =>
    intro hij hj
    rcases Nat.lt_or_ge i n with hc | hc
    · exact lt_trans (ih hc (by omega)) (sumPrior_lt_succ bbs arr n (by omega))
    · have : i = n := by omega
      subst this
      exact sumPrior_lt_succ bbs arr i (by omega)

theorem calc_loop_ok (bbs : List (Nat × BasicBlk)) :
    ∀ (arr : List Nat) (acc : Nat) (sp : List (Nat × Nat)),
    (∀ id ∈ arr, ∃ b, alookup bbs id = some b) → arr.Nodup →
    ∃ spF, calc_bb_starting_points_loop bbs arr acc sp = Except.ok spF ∧
      (∀ k, k ∉ arr → alookup spF k = alookup sp k) ∧
      (∀ i, ∀ h : i < arr.length,
        alookup spF (arr.get ⟨i, h⟩) = some (acc + sumPrior bbs arr i)) := by
  intro arr
  induction arr with
  | nil =>
    intro acc sp _ _
    exact ⟨sp, rfl, fun k _ => rfl, fun i h => absurd h (by simp)⟩
  | cons id rest ih =>
    intro acc sp h1 h2
    obtain ⟨blk, hblk⟩ := h1 id (by simp)
    have hrest : ∀ i ∈ rest, ∃ b, alookup bbs i = some b :=
      fun i hi => h1 i (List.mem_cons_of_mem id hi)
    have hnd : rest.Nodup := (List.nodup_cons.mp h2).2
    have hnotin : id ∉ rest := (List.nodup_cons.mp h2).1
    obtain ⟨spF, hrun, hpres, hidx⟩ :=
      ih (acc + blk.inst.length + 1) (ainsert sp id acc) hrest hnd
    refine ⟨spF, ?_, ?_, ?_⟩
    · simp only [calc_bb_starting_points_loop, hblk]
      exact hrun
    · intro k hk
      have hk1 : k ≠ id := fun e => hk (e ▸ List.mem_cons_self id rest)
      have hk2 : k ∉ rest := fun m => hk (List.mem_cons_of_mem id m)
      rw [hpres k hk2, alookup_ainsert_ne sp id acc k hk1]
    · intro i h
      cases i with
      | zero =>
        have : (id :: rest).get ⟨0, h⟩ = id := rfl
        rw [this, hpres id hnotin, alookup_ainsert_self]
        simp [sumPrior]
      | succ n =>
        have hlt : n < rest.length := by simpa using h
        have hget : (id :: rest).get ⟨n + 1, h⟩ = rest.get ⟨n, hlt⟩ := rfl
        rw [hget, hidx n hlt]
        have : sumPrior bbs (id :: rest) (n + 1) =
            (instLen bbs id + 1) + sumPrior bbs rest n := by
          simp [sumPrior, List.take_cons]
        rw [this]
        have hinst : instLen bbs id = blk.inst.length := by simp [instLen, hblk]
        rw [hinst]
        congr 1
        omega

/-- C9: the computed starting positions realize the spec sums — the
`i`-th arranged block starts at the sum over prior blocks of
`instruction count + 1`, starting positions are strictly increasing in
arrangement order, and every instruction position `start + index` of a
block lies at or after the block's start and strictly before the next
block's start. -/
theorem c9_positions (bbs : List (Nat × BasicBlk)) (arr : List Nat)
    (h1 : ∀ id ∈ arr, ∃ b, alookup bbs id = some b) (h2 : arr.Nodup) :
    ∃ sp, calc_bb_starting_points bbs arr = Except.ok sp ∧
      (∀ i, ∀ h : i < arr.length,
        alookup sp (arr.get ⟨i, h⟩) = some (sumPrior bbs arr i)) ∧
      (∀ i j, i < j → j ≤ arr.length → sumPrior bbs arr i < sumPrior bbs arr j) ∧
      (∀ i, ∀ h : i < arr.length, ∀ idx : Nat, idx < instLen bbs (arr.get ⟨i, h⟩) →
        sumPrior bbs arr i ≤ sumPrior bbs arr i + idx ∧
        sumPrior bbs arr i + idx < sumPrior bbs arr (i + 1)) := by
  obtain ⟨spF, hrun, _, hidx⟩ := calc_loop_ok bbs arr 0 [] h1 h2
  refine ⟨spF, hrun, ?_, sumPrior_strict_mono bbs arr, ?_⟩
  · intro i h
    simpa using hidx i h
  · intro i h idx hidxlt
    constructor
    · omega
    · rw [sumPrior_succ bbs arr i h]
      omega

/-- Witness for C9 at the two-block arrangement `[0, 1]` of `c9Bbs`. -/
theorem c9_positions_witness :
    calc_bb_starting_points c9Bbs [0, 1] = Except.ok [(0, 0), (1, 3)] ∧
    sumPrior c9Bbs [0, 1] 0 < sumPrior c9Bbs [0, 1] 1 ∧
    alookup [(0, 0), (1, 3)] 1 = some (sumPrior c9Bbs [0, 1] 1) := by
  obtain ⟨sp, hrun, hidx, hmono, _⟩ :=
    c9_positions c9Bbs [0, 1]
      (by intro id hid; fin_cases hid <;> exact ⟨_, rfl⟩) (by decide)
  have hsp : sp = [(0, 0), (1, 3)] := by
    have h2 : calc_bb_starting_points c9Bbs [0, 1] = Except.ok [(0, 0), (1, 3)] := rfl
    exact Except.ok.inj (hrun.symm.trans h2)
  subst hsp
  exact ⟨hrun, hmono 0 1 (by decide) (by decide), hidx 1 (by decide)⟩

/-! ## C5: pinned variables are never chosen as spill victims -/

theorem spill_candidates_mem (vt : List (Nat × VarDecl)) (allowed : List Nat) :
    ∀ (l : List (Nat × Nat)) (res : List (Nat × Nat)),
    spill_candidates vt allowed l = Except.ok res →
    ∀ p ∈ res, p ∈ l ∧ ∃ d, alookup vt p.1 = some d ∧
      (d.kind ≠ VarKind.FixedTemp ∧ d.kind ≠ VarKind.Ret) ∧ p.2 ∈ allowed := by
  intro l
  induction l with
  | nil =>
    intro res h p hp
    simp only [spill_candidates, Except.ok.injEq] at h
    subst h
    simp at hp
  | cons q rest ih =>
    intro res h p hp
    obtain ⟨v, r⟩ := q
    simp only [spill_candidates] at h
    cases hvt : alookup vt v with
    | none => rw [hvt] at h; exact Except.noConfusion h
    | some d =>
      rw [hvt] at h
      cases hrest : spill_candidates vt allowed rest with
      | error e => rw [hrest] at h; exact Except.noConfusion h
      | ok rest' =>
        rw [hrest] at h
        dsimp only at h
        by_cases hcond : (d.kind ≠ VarKind.FixedTemp ∧ d.kind ≠ VarKind.Ret) ∧ r ∈ allowed
        · rw [if_pos hcond] at h
          simp only [Except.ok.injEq] at h
          subst h
          rcases List.mem_cons.mp hp with e | m
          · subst e
            exact ⟨List.mem_cons_self _ _, d, hvt, hcond.1, hcond.2⟩
          · obtain ⟨hin, hrest2⟩ := ih rest' hrest p m
            exact ⟨List.mem_cons_of_mem _ hin, hrest2⟩
        · rw [if_neg hcond] at h
          simp only [Except.ok.injEq] at h
          subst h
          obtain ⟨hin, hrest2⟩ := ih rest' hrest p hp
          exact ⟨List.mem_cons_of_mem _ hin, hrest2⟩

/-- C5: whenever `choose_spill_register` returns a victim register, the
variable occupying that register in the Active map is neither
`FixedTemp`- nor `Ret`-kind — pinned variables are never chosen as spill
victims (the Active map is assumed register-unique, which its operations
maintain). -/
theorem c5_pinned_never_victim (src : Func) (st : AllocSt) (allowed : List Nat) (r : Nat)
    (hact : (st.active.map Prod.snd).Nodup)
    (hres : choose_spill_register src st allowed = Except.ok (some r)) :
    ∀ v d, (v, r) ∈ st.active → alookup src.var_table v = some d →
      d.kind ≠ VarKind.FixedTemp ∧ d.kind ≠ VarKind.Ret := by
  unfold choose_spill_register at hres
  cases hc : spill_candidates src.var_table allowed st.active with
  | error e => rw [hc] at hres; exact Except.noConfusion hres
  | ok regs =>
    rw [hc] at hres
    simp only [Except.ok.injEq] at hres
    cases hl : (stableSortByKey
        (fun p => ((alookup st.live_intervals p.1).map Interval.len).getD 0) regs).getLast? with
    | none => rw [hl] at hres; simp at hres
    | some p =>
      rw [hl] at hres
      have hpr : p.2 = r := by simpa using hres
      have hmem : p ∈ regs := (mem_stableSortByKey _ _ _).mp (mem_of_getLast? hl)
      obtain ⟨hin, d0, hd0, hkind, _⟩ :=
        spill_candidates_mem src.var_table allowed st.active regs hc p hmem
      intro v d hvr hvd
      have hp2 : p = (p.1, r) := by rw [← hpr]
      have hv : v = p.1 := eq_fst_of_snd_nodup hact hvr (hp2 ▸ hin)
      subst hv
      rw [hvd] at hd0
      cases Option.some.inj hd0
      exact hkind

/-- Witness for C5: with a `Local`-kind variable on register 4 and a
`Ret`-kind variable on register 5, the chooser returns register 4, and
the theorem yields that its occupant is not pinned. -/
theorem c5_pinned_never_victim_witness :
    choose_spill_register c5Src c5St [4, 5] = Except.ok (some 4) ∧
    (VarDecl.kind ⟨VarKind.Local, Ty.int⟩ ≠ VarKind.FixedTemp ∧
      VarDecl.kind ⟨VarKind.Local, Ty.int⟩ ≠ VarKind.Ret) := by
  have h : choose_spill_register c5Src c5St [4, 5] = Except.ok (some 4) := rfl
  exact ⟨h, c5_pinned_never_victim c5Src c5St [4, 5] 4 (by decide) h 1
    ⟨VarKind.Local, Ty.int⟩ (by decide) rfl⟩

/-! ## C4: request_read_allocation -/

theorem ainsert_ainsert {α : Type} (l : List (Nat × α)) (k : Nat) (a b : α) :
    ainsert (ainsert l k a) k b = ainsert l k b := by
  induction l with
  | nil => simp [ainsert]
  | cons p rest ih =>
    obtain ⟨k0, v0⟩ := p
    by_cases h : k0 = k
    · subst h; simp [ainsert]
    · simp [ainsert, h, ih]

theorem bimapInsert_idem (m : List (Nat × Nat)) (l r : Nat) :
    bimapInsert (bimapInsert m l r) l r = bimapInsert m l r := by
  unfold bimapInsert
  rw [List.filter_append, List.filter_filter]
  simp

/-- C4: behaviour of `request_read_allocation(var, pos)` in all four
claimed regimes.  (1) If the latest assignment is valid for reading at
`pos`, its register is returned and the state is unchanged.  (2) If it is
stale and the variable has no spill record, the revive panics.  (3) If
the latest spill interval is not valid for reading at `pos`, the revive
assertion panics.  (4) Otherwise the latest spill interval is truncated
at `pos` and the first free register of the general variable pool is
allocated and returned (stated for an inactive variable with a free pool
register and a register-history clean at `pos`: the code then pushes two
point-interval bindings of that register and activates it). -/
theorem c4_request_read_allocation (src : Func) (pools : RegPools) (st : AllocSt)
    (var pos : Nat) :
    (∀ v, alookup st.assignment var = some v →
      v.recent.1.alive_for_reading pos = true →
      request_read_allocation src pools st var pos = Except.ok (v.recent.2, st)) ∧
    (∀ v, alookup st.assignment var = some v →
      v.recent.1.alive_for_reading pos = false →
      alookup st.spilled var = none →
      request_read_allocation src pools st var pos =
        Except.error "The variable is not spilled") ∧
    (∀ v sp, alookup st.assignment var = some v →
      v.recent.1.alive_for_reading pos = false →
      alookup st.spilled var = some sp →
      sp.recent.alive_for_reading pos = false →
      request_read_allocation src pools st var pos =
        Except.error "Reading variable outside live interval") ∧
    (∀ v sp r, alookup st.assignment var = some v →
      v.recent.1.alive_for_reading pos = false →
      alookup st.spilled var = some sp →
      sp.recent.alive_for_reading pos = true →
      bimapGetLeft st.active var = none →
      pools.variable_registers.find? (fun reg => !bimapContainsRight st.active reg) = some r →
      (∀ p ∈ v.toList, p.1.is_inside_write pos = false) →
      r ∈ pools.variable_registers ∧
      request_read_allocation src pools st var pos = Except.ok (r,
        { st with
          assignment := ainsert st.assignment var
            ((v.push (⟨pos, pos⟩, r)).push (⟨pos, pos⟩, r))
          spilled := ainsert st.spilled var ⟨⟨sp.recent.lo, pos⟩, sp.older⟩
          active := bimapInsert st.active var r })) := by
  refine ⟨?_, ?_, ?_, ?_⟩
  · intro v hv halive
    simp only [request_read_allocation, hv, halive, if_true]
  · intro v hv halive hsp
    simp only [request_read_allocation, revive, hv, halive, hsp, if_false, Bool.false_eq_true]
  · intro v sp hv halive hsp hspdead
    simp only [request_read_allocation, revive, hv, halive, hsp, hspdead, if_false,
      Bool.false_eq_true]
  · intro v sp r hv halive hsp hspalive hina hfree hclean
    refine ⟨List.mem_of_find?_eq_some hfree, ?_⟩
    have hall : v.toList.all (fun p => !(p.1.is_inside_write pos)) = true := by
      rw [List.all_eq_true]
      intro p hp
      rw [hclean p hp]
      rfl
    have hall2 : ((v.push (⟨pos, pos⟩, r)).toList.all
        (fun p => !(p.1.is_inside_write pos))) = true := by
      have hcons : (v.push (⟨pos, pos⟩, r)).toList = (⟨pos, pos⟩, r) :: v.toList := rfl
      rw [hcons, List.all_cons, hall]
      simp [Interval.is_inside_write]
    simp only [request_read_allocation, revive, find_allocate_or_spill, allocate_register,
      hv, halive, hsp, hspalive, hina, hfree, if_false, if_true, Bool.false_eq_true]
    simp only [hall, eq_self_iff_true, if_true, alookup_ainsert_self]
    simp only [Interval.splitKeep, Interval.splitTail]
    simp only [alookup_ainsert_self, hall2, eq_self_iff_true, if_true,
      ainsert_ainsert, bimapInsert_idem]

/-- Witness for C4: all four regimes at concrete states — a live
assignment on register 9, a stale assignment without and with an invalid
spill record, and a revivable spill that is granted the first free
general-pool register 4. -/
theorem c4_request_read_allocation_witness :
    (request_read_allocation ⟨[], []⟩ ⟨[], [], [4, 5], []⟩
        { AllocSt.new with assignment := [(1, Vec1.one (⟨0, 5⟩, 9))] } 1 3 =
      Except.ok (9, { AllocSt.new with assignment := [(1, Vec1.one (⟨0, 5⟩, 9))] })) ∧
    (request_read_allocation ⟨[], []⟩ ⟨[], [], [4, 5], []⟩
        { AllocSt.new with assignment := [(1, Vec1.one (⟨0, 2⟩, 9))] } 1 5 =
      Except.error "The variable is not spilled") ∧
    (request_read_allocation ⟨[], []⟩ ⟨[], [], [4, 5], []⟩
        { AllocSt.new with
          assignment := [(1, Vec1.one (⟨0, 2⟩, 9))]
          spilled := [(1, Vec1.one ⟨2, 4⟩)] } 1 5 =
      Except.error "Reading variable outside live interval") ∧
    (4 ∈ [4, 5] ∧
      request_read_allocation ⟨[], []⟩ ⟨[], [], [4, 5], []⟩
        { AllocSt.new with
          assignment := [(1, Vec1.one (⟨0, 2⟩, 9))]
          spilled := [(1, Vec1.one ⟨2, 6⟩)] } 1 3 =
      Except.ok (4,
        { AllocSt.new with
          assignment := ainsert [(1, Vec1.one (⟨0, 2⟩, 9))] 1
            (((Vec1.one (⟨0, 2⟩, 9)).push (⟨3, 3⟩, 4)).push (⟨3, 3⟩, 4))
          spilled := ainsert [(1, Vec1.one ⟨2, 6⟩)] 1 ⟨⟨2, 3⟩, []⟩
          active := bimapInsert [] 1 4 })) := by
  refine ⟨?_, ?_, ?_, ?_⟩
  · exact (c4_request_read_allocation ⟨[], []⟩ ⟨[], [], [4, 5], []⟩
      { AllocSt.new with assignment := [(1, Vec1.one (⟨0, 5⟩, 9))] } 1 3).1
      (Vec1.one (⟨0, 5⟩, 9)) rfl rfl
  · exact (c4_request_read_allocation ⟨[], []⟩ ⟨[], [], [4, 5], []⟩
      { AllocSt.new with assignment := [(1, Vec1.one (⟨0, 2⟩, 9))] } 1 5).2.1
      (Vec1.one (⟨0, 2⟩, 9)) rfl rfl rfl
  · exact (c4_request_read_allocation ⟨[], []⟩ ⟨[], [], [4, 5], []⟩
      { AllocSt.new with
        assignment := [(1, Vec1.one (⟨0, 2⟩, 9))]
        spilled := [(1, Vec1.one ⟨2, 4⟩)] } 1 5).2.2.1
      (Vec1.one (⟨0, 2⟩, 9)) (Vec1.one ⟨2, 4⟩) rfl rfl rfl rfl
  · exact (c4_request_read_allocation ⟨[], []⟩ ⟨[], [], [4, 5], []⟩
      { AllocSt.new with
        assignment := [(1, Vec1.one (⟨0, 2⟩, 9))]
        spilled := [(1, Vec1.one ⟨2, 6⟩)] } 1 3).2.2.2
      (Vec1.one (⟨0, 2⟩, 9)) (Vec1.one ⟨2, 6⟩) 4 rfl rfl rfl rfl rfl rfl (by decide)

/-! ## C6 (amended): exclusivity of the Active map -/

theorem nodup_fst_bimapInsert {m : List (Nat × Nat)} (l r : Nat)
    (h : (m.map Prod.fst).Nodup) : ((bimapInsert m l r).map Prod.fst).Nodup := by
  unfold bimapInsert
  rw [List.map_append]
  have hsub : ((m.filter fun p => decide (p.1 ≠ l) && decide (p.2 ≠ r)).map Prod.fst).Sublist
      (m.map Prod.fst) := (List.filter_sublist m).map Prod.fst
  rw [List.nodup_append]
  refine ⟨h.sublist hsub, by simp, ?_⟩
  intro x hx
  simp only [List.mem_map] at hx
  obtain ⟨p, hp, hpx⟩ := hx
  have := List.of_mem_filter hp
  simp only [Bool.and_eq_true, decide_eq_true_eq] at this
  simp only [List.map_cons, List.map_nil, List.mem_cons, List.not_mem_nil, or_false]
  intro e
  exact this.1 (hpx.trans e)

theorem nodup_snd_bimapInsert {m : List (Nat × Nat)} (l r : Nat)
    (h : (m.map Prod.snd).Nodup) : ((bimapInsert m l r).map Prod.snd).Nodup := by
  unfold bimapInsert
  rw [List.map_append]
  have hsub : ((m.filter fun p => decide (p.1 ≠ l) && decide (p.2 ≠ r)).map Prod.snd).Sublist
      (m.map Prod.snd) := (List.filter_sublist m).map Prod.snd
  rw [List.nodup_append]
  refine ⟨h.sublist hsub, by simp, ?_⟩
  intro x hx
  simp only [List.mem_map] at hx
  obtain ⟨p, hp, hpx⟩ := hx
  have := List.of_mem_filter hp
  simp only [Bool.and_eq_true, decide_eq_true_eq] at this
  simp only [List.map_cons, List.map_nil, List.mem_cons, List.not_mem_nil, or_false]
  intro e
  exact this.2 (hpx.trans e)

theorem activeOk_bimapInsert {m : List (Nat × Nat)} (l r : Nat)
    (h1 : (m.map Prod.fst).Nodup) (h2 : (m.map Prod.snd).Nodup) :
    ((bimapInsert m l r).map Prod.fst).Nodup ∧ ((bimapInsert m l r).map Prod.snd).Nodup :=
  ⟨nodup_fst_bimapInsert l r h1, nodup_snd_bimapInsert l r h2⟩

theorem activeOk_filter {m : List (Nat × Nat)} (f : Nat × Nat → Bool)
    (h1 : (m.map Prod.fst).Nodup) (h2 : (m.map Prod.snd).Nodup) :
    ((m.filter f).map Prod.fst).Nodup ∧ ((m.filter f).map Prod.snd).Nodup :=
  ⟨h1.sublist ((List.filter_sublist m).map Prod.fst),
   h2.sublist ((List.filter_sublist m).map Prod.snd)⟩

theorem activeOk_allocate_register {st st' : AllocSt} {v r pos : Nat} {iv : Interval}
    (h : ActiveOk st) (he : allocate_register st v r pos iv = Except.ok st') :
    ActiveOk st' := by
  unfold allocate_register at he
  cases ha : alookup st.assignment v with
  | some vec =>
    rw [ha] at he
    dsimp only at he
    by_cases hc : (vec.toList.all fun p => !p.1.is_inside_write pos) = true
    · rw [if_pos hc] at he
      cases hs : alookup st.spilled v with
      | none => rw [hs] at he; exact Except.noConfusion he
      | some sp =>
        rw [hs] at he
        dsimp only at he
        cases Except.ok.inj he
        exact activeOk_bimapInsert v r h.1 h.2
    · rw [if_neg hc] at he
      exact Except.noConfusion he
  | none =>
    rw [ha] at he
    dsimp only at he
    cases hs : alookup st.spilled v with
    | none =>
      rw [hs] at he
      dsimp only at he
      cases Except.ok.inj he
      exact activeOk_bimapInsert v r h.1 h.2
    | some sp =>
      rw [hs] at he
      dsimp only at he
      cases Except.ok.inj he
      exact activeOk_bimapInsert v r h.1 h.2

theorem activeOk_spill_var {st st' : AllocSt} {v pos : Nat}
    (h : ActiveOk st) (he : spill_var st v pos = Except.ok st') : ActiveOk st' := by
  unfold spill_var at he
  cases ha : alookup st.assignment v with
  | some vec =>
    rw [ha] at he
    dsimp only at he
    cases Except.ok.inj he
    exact activeOk_filter _ h.1 h.2
  | none => rw [ha] at he; exact Except.noConfusion he

theorem activeOk_spill_reg {st st' : AllocSt} {r pos : Nat}
    (h : ActiveOk st) (he : spill_reg st r pos = Except.ok st') : ActiveOk st' := by
  unfold spill_reg at he
  cases hg : bimapGetRight st.active r with
  | none => rw [hg] at he; exact Except.noConfusion he
  | some v =>
    rw [hg] at he
    exact activeOk_spill_var h he

theorem revive_active {st st' : AllocSt} {v pos : Nat} {iv : Interval}
    (he : revive st v pos = Except.ok (iv, st')) : st'.active = st.active := by
  unfold revive at he
  cases hs : alookup st.spilled v with
  | none => rw [hs] at he; exact Except.noConfusion he
  | some sp =>
    rw [hs] at he
    dsimp only at he
    by_cases hc : sp.recent.alive_for_reading pos = true
    · rw [if_pos hc] at he
      cases Except.ok.inj he
      rfl
    · rw [if_neg hc] at he
      exact Except.noConfusion he

theorem activeOk_find_allocate_or_spill {src : Func} {st st' : AllocSt}
    {v : Nat} {allowed : List Nat} {iv : Interval} {pos r : Nat}
    (h : ActiveOk st)
    (he : find_allocate_or_spill src st v allowed iv pos = Except.ok (r, st')) :
    ActiveOk st' := by
  unfold find_allocate_or_spill at he
  cases hg : bimapGetLeft st.active v with
  | some reg =>
    rw [hg] at he
    dsimp only at he
    exact (Prod.mk.inj (Except.ok.inj he)).2 ▸ h
  | none =>
    rw [hg] at he
    dsimp only at he
    cases hf : allowed.find? fun reg => !bimapContainsRight st.active reg with
    | some reg =>
      rw [hf] at he
      dsimp only at he
      cases hal : allocate_register st v reg pos iv with
      | error e => rw [hal] at he; exact Except.noConfusion he
      | ok st1 =>
        rw [hal] at he
        dsimp only at he
        cases Except.ok.inj he
        exact activeOk_allocate_register h hal
    | none =>
      rw [hf] at he
      dsimp only at he
      cases hcs : choose_spill_register src st allowed with
      | error e => rw [hcs] at he; exact Except.noConfusion he
      | ok o =>
        rw [hcs] at he
        cases o with
        | none => dsimp only at he; exact Except.noConfusion he
        | some reg =>
          dsimp only at he
          cases hsr : spill_reg st reg pos with
          | error e => rw [hsr] at he; exact Except.noConfusion he
          | ok st1 =>
            rw [hsr] at he
            dsimp only at he
            cases hal : allocate_register st1 v reg pos iv with
            | error e => rw [hal] at he; exact Except.noConfusion he
            | ok st2 =>
              rw [hal] at he
              dsimp only at he
              cases Except.ok.inj he
              exact activeOk_allocate_register (activeOk_spill_reg h hsr) hal

theorem activeOk_request_read {src : Func} {pools : RegPools} {st st' : AllocSt}
    {v pos r : Nat} (h : ActiveOk st)
    (he : request_read_allocation src pools st v pos = Except.ok (r, st')) :
    ActiveOk st' := by
  unfold request_read_allocation at he
  cases ha : alookup st.assignment v with
  | none => rw [ha] at he; exact Except.noConfusion he
  | some vec =>
    rw [ha] at he
    dsimp only at he
    by_cases hc : vec.recent.1.alive_for_reading pos = true
    · rw [if_pos hc] at he
      cases Except.ok.inj he
      exact h
    · rw [if_neg hc] at he
      cases hr : revive st v pos with
      | error e => rw [hr] at he; exact Except.noConfusion he
      | ok p =>
        obtain ⟨iv, st1⟩ := p
        rw [hr] at he
        dsimp only at he
        cases hfa : find_allocate_or_spill src st1 v pools.variable_registers iv pos with
        | error e => rw [hfa] at he; exact Except.noConfusion he
        | ok q =>
          obtain ⟨reg, st2⟩ := q
          rw [hfa] at he
          dsimp only at he
          cases hal : allocate_register st2 v reg pos iv with
          | error e => rw [hal] at he; exact Except.noConfusion he
          | ok st3 =>
            rw [hal] at he
            dsimp only at he
            cases Except.ok.inj he
            have h1 : ActiveOk st1 := by
              have := revive_active hr
              exact ⟨this ▸ h.1, this ▸ h.2⟩
            exact activeOk_allocate_register (activeOk_find_allocate_or_spill h1 hfa) hal

theorem activeOk_request_write {src : Func} {pools : RegPools} {st st' : AllocSt}
    {v pos r : Nat} {iv : Interval} (h : ActiveOk st)
    (he : request_write_allocation src pools st v pos iv = Except.ok (r, st')) :
    ActiveOk st' := by
  unfold request_write_allocation at he
  cases ha : alookup st.assignment v with
  | none =>
    rw [ha] at he
    exact activeOk_find_allocate_or_spill h he
  | some vec =>
    rw [ha] at he
    dsimp only at he
    by_cases hc : vec.recent.1.alive_for_reading pos = true
    · rw [if_pos hc] at he
      cases Except.ok.inj he
      exact h
    · rw [if_neg hc] at he
      cases hr : revive st v pos with
      | error e => rw [hr] at he; exact Except.noConfusion he
      | ok p =>
        obtain ⟨iv2, st1⟩ := p
        rw [hr] at he
        dsimp only at he
        have h1 : ActiveOk st1 := by
          have := revive_active hr
          exact ⟨this ▸ h.1, this ▸ h.2⟩
        exact activeOk_find_allocate_or_spill h1 he

theorem activeOk_allocStep {src : Func} {pools : RegPools} {st st' : AllocSt}
    {c : AllocCall} (h : ActiveOk st) (he : allocStep src pools st c = Except.ok st') :
    ActiveOk st' := by
  cases c with
  | allocateRegister v r pos iv => exact activeOk_allocate_register h he
  | spillVar v pos => exact activeOk_spill_var h he
  | spillReg r pos => exact activeOk_spill_reg h he
  | requestRead v pos =>
    simp only [allocStep, Except.map] at he
    cases hr : request_read_allocation src pools st v pos with
    | error e => rw [hr] at he; exact Except.noConfusion he
    | ok p =>
      obtain ⟨r, st1⟩ := p
      rw [hr] at he
      cases Except.ok.inj he
      exact activeOk_request_read h hr
  | requestWrite v pos iv =>
    simp only [allocStep, Except.map] at he
    cases hr : request_write_allocation src pools st v pos iv with
    | error e => rw [hr] at he; exact Except.noConfusion he
    | ok p =>
      obtain ⟨r, st1⟩ := p
      rw [hr] at he
      cases Except.ok.inj he
      exact activeOk_request_write h hr
  | requestScratch pos =>
    simp only [allocStep, Except.map, request_scratch_register] at he
    cases hr : find_allocate_or_spill src
        { st with scratch_register_counter := st.scratch_register_counter - 1 }
        st.scratch_register_counter pools.scratch_registers
        (Interval.point pos) pos with
    | error e => rw [hr] at he; exact Except.noConfusion he
    | ok p =>
      obtain ⟨r, st1⟩ := p
      rw [hr] at he
      cases Except.ok.inj he
      have hm : ActiveOk
          { st with scratch_register_counter := st.scratch_register_counter - 1 } :=
        ⟨h.1, h.2⟩
      exact activeOk_find_allocate_or_spill hm hr
  | requestAllocateMemory v pos => exact activeOk_spill_var h he
  | forceFreeRegister r pos => exact activeOk_spill_reg h he

/-- C6, amended: after any sequence of public allocator calls that
succeeds from the freshly constructed state, the Active bidirectional
map is exclusive in both directions — at most one register per variable
and at most one variable per register.  (The assignment-table half of
the original claim fails; see the counterexample.) -/
theorem c6_active_exclusive (src : Func) (pools : RegPools) (calls : List AllocCall)
    (st' : AllocSt) (h : runCalls src pools AllocSt.new calls = Except.ok st') :
    ActiveOk st' ∧
    ∀ v1 v2 r, (v1, r) ∈ st'.active → (v2, r) ∈ st'.active → v1 = v2 := by
  have main : ∀ (calls : List AllocCall) (st st' : AllocSt), ActiveOk st →
      runCalls src pools st calls = Except.ok st' → ActiveOk st' := by
    intro calls
    induction calls with
    | nil =>
      intro st st' h0 he
      cases Except.ok.inj he
      exact h0
    | cons c rest ih =>
      intro st st' h0 he
      simp only [runCalls] at he
      cases hs : allocStep src pools st c with
      | error e => rw [hs] at he; exact Except.noConfusion he
      | ok st1 =>
        rw [hs] at he
        exact ih st1 st' (activeOk_allocStep h0 hs) he
  have hOk : ActiveOk st' := main calls AllocSt.new st' (by constructor <;> simp [AllocSt.new]) h
  exact ⟨hOk, fun v1 v2 r h1 h2 => eq_fst_of_snd_nodup hOk.2 h1 h2⟩

/-- Witness for C6 (amended) at a three-call sequence that allocates,
spills and reallocates register 7. -/
theorem c6_active_exclusive_witness :
    runCalls ⟨[], []⟩ ⟨[], [], [], []⟩ AllocSt.new
        [AllocCall.allocateRegister 1 7 0 ⟨0, 10⟩,
         AllocCall.spillVar 1 5,
         AllocCall.allocateRegister 2 7 5 ⟨5, 8⟩] =
      Except.ok
        { AllocSt.new with
          assignment := [(1, ⟨(⟨0, 5⟩, 7), []⟩), (2, Vec1.one (⟨5, 8⟩, 7))]
          spilled := [(1, Vec1.one ⟨5, 10⟩)]
          active := [(2, 7)] } ∧
    ActiveOk
        { AllocSt.new with
          assignment := [(1, ⟨(⟨0, 5⟩, 7), []⟩), (2, Vec1.one (⟨5, 8⟩, 7))]
          spilled := [(1, Vec1.one ⟨5, 10⟩)]
          active := [(2, 7)] } := by
  have h : runCalls ⟨[], []⟩ ⟨[], [], [], []⟩ AllocSt.new
      [AllocCall.allocateRegister 1 7 0 ⟨0, 10⟩,
       AllocCall.spillVar 1 5,
       AllocCall.allocateRegister 2 7 5 ⟨5, 8⟩] =
      Except.ok
        { AllocSt.new with
          assignment := [(1, ⟨(⟨0, 5⟩, 7), []⟩), (2, Vec1.one (⟨5, 8⟩, 7))]
          spilled := [(1, Vec1.one ⟨5, 10⟩)]
          active := [(2, 7)] } := rfl
  exact ⟨h, (c6_active_exclusive ⟨[], []⟩ ⟨[], [], [], []⟩ _ _ h).1⟩

/-! ## C2 (amended): linearizer coverage and order

Supporting lemmas about edges, counters and list bookkeeping, then the
Kahn-style invariant argument for the BFS loop. -/

theorem wf_irrefl {r : Nat → Nat → Prop} (wf : WellFounded r) (a : Nat) : ¬ r a a := by
  have h := wf.apply a
  induction h with
  | intro x hx ih => exact fun hxx => ih x hxx hxx

theorem edge_mem_left {bbs : List (Nat × BasicBlk)} {a b : Nat}
    (h : edgeB bbs a b = true) : a ∈ akeys bbs := by
  unfold edgeB at h
  cases ha : alookup bbs a with
  | none => rw [ha] at h; exact absurd h (by simp)
  | some blk => exact mem_akeys_of_alookup ha

theorem edge_iff_next {bbs : List (Nat × BasicBlk)} {a b : Nat} {blk : BasicBlk}
    (hblk : alookup bbs a = some blk) :
    edgeB bbs a b = true ↔ b ∈ blk.term.next_ids := by
  unfold edgeB
  rw [hblk]
  simp

theorem mem_preds {bbs : List (Nat × BasicBlk)} {a b : Nat} :
    a ∈ preds bbs b ↔ edgeB bbs a b = true := by
  unfold preds
  rw [List.mem_filter]
  exact ⟨fun h => h.2, fun h => ⟨edge_mem_left h, h⟩⟩

theorem next_ids_length (j : JumpInst) : j.next_ids.length ≤ 2 := by
  cases j <;> simp [JumpInst.next_ids]

theorem count_eq_ite_of_nodup {l : List Nat} (h : l.Nodup) (b : Nat) :
    l.count b = if b ∈ l then 1 else 0 := by
  by_cases hm : b ∈ l
  · rw [if_pos hm]
    exact List.count_eq_one_of_mem h hm
  · rw [if_neg hm]
    exact List.count_eq_zero.mpr hm

theorem filter_notmem_cons {l : List Nat} (hl : l.Nodup) {q : Nat} {vis : List Nat}
    (hq : q ∉ vis) :
    ((l.filter fun x => decide (x ∉ q :: vis)).length + (if q ∈ l then 1 else 0)) =
      (l.filter fun x => decide (x ∉ vis)).length := by
  have hsplit : (l.filter fun x => decide (x ∉ q :: vis)) =
      ((l.filter fun x => decide (x ∉ vis)).filter fun x => x != q) := by
    rw [List.filter_filter]
    apply List.filter_congr
    intro y _
    by_cases h1 : y = q <;> by_cases h2 : y ∈ vis <;>
      simp [h1, h2, List.mem_cons, bne_iff_ne]
  rw [hsplit]
  have hLnd : (l.filter fun x => decide (x ∉ vis)).Nodup := hl.filter _
  have hmemL : q ∈ (l.filter fun x => decide (x ∉ vis)) ↔ q ∈ l := by
    rw [List.mem_filter]
    simp [hq]
  by_cases hql : q ∈ l
  · rw [if_pos hql]
    have hqL : q ∈ (l.filter fun x => decide (x ∉ vis)) := hmemL.mpr hql
    have he : ((l.filter fun x => decide (x ∉ vis)).filter fun x => x != q) =
        (l.filter fun x => decide (x ∉ vis)).erase q := by
      rw [hLnd.erase_eq_filter]
    rw [he, List.length_erase_of_mem hqL]
    have : 0 < (l.filter fun x => decide (x ∉ vis)).length := List.length_pos_of_mem hqL
    omega
  · rw [if_neg hql]
    have hfix : ((l.filter fun x => decide (x ∉ vis)).filter fun x => x != q) =
        (l.filter fun x => decide (x ∉ vis)) := by
      apply List.filter_eq_self.mpr
      intro x hx
      have hxl : x ∈ l := (List.mem_filter.mp hx).1
      have : x ≠ q := fun e => hql (e ▸ hxl)
      simpa [bne_iff_ne] using this
    rw [hfix]
    omega

theorem indexOf_append_left {l : List Nat} (t : List Nat) {a : Nat} (h : a ∈ l) :
    (l ++ t).indexOf a = l.indexOf a := by
  induction l with
  | nil => simp at h
  | cons x rest ih =>
    by_cases hx : x = a
    · subst hx
      simp [List.indexOf_cons_self]
    · have ha : a ∈ rest := by
        rcases List.mem_cons.mp h with e | m
        · exact absurd e.symm hx
        · exact m
      have hxne : x ≠ a := hx
      simp only [List.cons_append, List.indexOf_cons_ne _ hxne, ih ha]

theorem indexOf_append_self {l : List Nat} {b : Nat} (h : b ∉ l) :
    (l ++ [b]).indexOf b = l.length := by
  induction l with
  | nil => simp [List.indexOf_cons_self]
  | cons x rest ih =>
    have hx : x ≠ b := fun e => h (e ▸ List.mem_cons_self x rest)
    have hr : b ∉ rest := fun m => h (List.mem_cons_of_mem x m)
    simp only [List.cons_append, List.indexOf_cons_ne _ hx, ih hr, List.length_cons]

theorem bumpCount_self (m : List (Nat × Int)) (id : Nat) :
    alookup (bumpCount m id) id = some ((alookup m id).getD 0 + 1) := by
  unfold bumpCount
  cases h : alookup m id with
  | none => rw [alookup_ainsert_self]; simp
  | some c => rw [alookup_ainsert_self]; simp

theorem bumpCount_ne (m : List (Nat × Int)) (id k : Nat) (h : k ≠ id) :
    alookup (bumpCount m id) k = alookup m k := by
  unfold bumpCount
  cases hm : alookup m id with
  | none => exact alookup_ainsert_ne m id 1 k h
  | some c => exact alookup_ainsert_ne m id (c + 1) k h

theorem bumpIter_self (id : Nat) : ∀ (xs : List Nat) (m : List (Nat × Int)), xs ≠ [] →
    alookup (xs.foldl (fun m _ => bumpCount m id) m) id =
      some ((alookup m id).getD 0 + xs.length) := by
  intro xs
  induction xs with
  | nil => intro m h; exact absurd rfl h
  | cons x rest ih =>
    intro m _
    simp only [List.foldl_cons]
    cases hrest : rest with
    | nil =>
      simp only [List.foldl_nil, bumpCount_self]
      simp
    | cons y ys =>
      rw [← hrest, ih (bumpCount m id) (by simp [hrest])]
      rw [bumpCount_self]
      simp only [Option.getD_some, List.length_cons]
      congr 1
      push_cast
      ring

theorem bumpIter_ne (id k : Nat) (h : k ≠ id) :
    ∀ (xs : List Nat) (m : List (Nat × Int)),
    alookup (xs.foldl (fun m _ => bumpCount m id) m) k = alookup m k := by
  intro xs
  induction xs with
  | nil => intro m; rfl
  | cons x rest ih =>
    intro m
    simp only [List.foldl_cons, ih, bumpCount_ne m id k h]

theorem alookup_eq_none_of_not_mem {α : Type} {l : List (Nat × α)} {k : Nat}
    (h : k ∉ akeys l) : alookup l k = none := by
  cases hc : alookup l k with
  | none => rfl
  | some v => exact absurd (mem_akeys_of_alookup hc) h

theorem initCounts_fold_lookup (bbs : List (Nat × BasicBlk)) (hnd : (akeys bbs).Nodup) :
    ∀ (m : List (Nat × Int)) (b : Nat),
    alookup (bbs.foldl (fun m p => p.2.jump_in.foldl (fun m _ => bumpCount m p.1) m) m) b =
      match alookup bbs b with
      | some blk =>
        if blk.jump_in.length = 0 then alookup m b
        else some ((alookup m b).getD 0 + blk.jump_in.length)
      | none => alookup m b := by
  induction bbs with
  | nil => intro m b; simp [alookup]
  | cons p rest ih =>
    obtain ⟨bid, blk⟩ := p
    have hid : bid ∉ akeys rest := by
      simp only [akeys, List.map_cons, List.nodup_cons] at hnd
      exact hnd.1
    have hnd2 : (akeys rest).Nodup := by
      simp only [akeys, List.map_cons, List.nodup_cons] at hnd
      exact hnd.2
    intro m b
    simp only [List.foldl_cons]
    by_cases hb : b = bid
    · subst hb
      rw [ih hnd2 _ b, alookup_eq_none_of_not_mem hid]
      simp only [alookup, if_pos rfl]
      cases hj : blk.jump_in with
      | nil => simp [hj]
      | cons y ys =>
        rw [bumpIter_self b (y :: ys) m (by simp)]
        simp [hj]
    · rw [ih hnd2 _ b]
      have hm : alookup (blk.jump_in.foldl (fun m _ => bumpCount m bid) m) b = alookup m b :=
        bumpIter_ne bid b hb blk.jump_in m
      have hhd : alookup ((bid, blk) :: rest) b = alookup rest b := by
        have : ¬ bid = b := fun e => hb e.symm
        simp [alookup, this]
      rw [hhd, hm]

theorem jlen_eq_preds_length (bbs : List (Nat × BasicBlk)) (hnd : (akeys bbs).Nodup)
    (hconsist : ∀ b blkb, alookup bbs b = some blkb →
      ∀ a, a ∈ blkb.jump_in ↔ edgeB bbs a b = true)
    (hjnodup : ∀ b blkb, alookup bbs b = some blkb → blkb.jump_in.Nodup)
    {b : Nat} {blkb : BasicBlk} (hb : alookup bbs b = some blkb) :
    blkb.jump_in.length = (preds bbs b).length := by
  have h1 : blkb.jump_in.Nodup := hjnodup b blkb hb
  have h2 : (preds bbs b).Nodup := hnd.filter _
  have hmem : ∀ a, a ∈ blkb.jump_in ↔ a ∈ preds bbs b := by
    intro a
    rw [hconsist b blkb hb a]
    exact mem_preds.symm
  rw [← List.toFinset_card_of_nodup h1, ← List.toFinset_card_of_nodup h2]
  congr 1
  ext a
  simp only [List.mem_toFinset]
  exact hmem a

theorem loopInv_skip (bbs : List (Nat × BasicBlk)) {q : Nat} {rest : List Nat}
    {counts : List (Nat × Int)} {vis arr : List Nat} {c : Int}
    (hinv : LoopInv bbs (q :: rest) counts vis arr)
    (hq : alookup counts q = some c)
    (hside : 1 ≤ c - 1 ∨ q ∈ vis) :
    LoopInv bbs rest (ainsert counts q (c - 1)) vis arr := by
  refine ⟨hinv.visEq, hinv.nodup, hinv.arrKeys, hinv.topo, ?_, ?_, ?_⟩
  · exact fun x hx => hinv.queueKeys x (List.mem_cons_of_mem q hx)
  · intro b hb
    by_cases hbq : b = q
    · subst hbq
      rw [alookup_ainsert_self]
      have hp := hinv.pending b hb
      rw [hq] at hp
      have hceq := Option.some.inj hp
      rw [List.count_cons_self] at hceq
      congr 1
      push_cast at hceq
      omega
    · rw [alookup_ainsert_ne counts q (c - 1) b hbq]
      have hp := hinv.pending b hb
      have hcnt : (q :: rest).count b = rest.count b := by
        have h2 : ¬ q = b := fun e => hbq e.symm
        rw [List.count_cons]
        simp [hbq, h2]
      rw [hcnt] at hp
      exact hp
  · intro b hb hbv
    by_cases hbq : b = q
    · subst hbq
      rcases hside with h1 | h2
      · exact Or.inr ⟨c - 1, alookup_ainsert_self counts b (c - 1), h1⟩
      · exact absurd h2 hbv
    · rw [alookup_ainsert_ne counts q (c - 1) b hbq]
      exact hinv.fresh b hb hbv

theorem loopInv_emit (bbs : List (Nat × BasicBlk))
    (hnd : (akeys bbs).Nodup)
    (hclosed : ∀ a blk, alookup bbs a = some blk → ∀ b ∈ blk.term.next_ids, b ∈ akeys bbs)
    (hsucc : ∀ a blk, alookup bbs a = some blk → blk.term.next_ids.Nodup)
    (hacyc : WellFounded fun a b => edgeB bbs a b = true)
    {q : Nat} {rest : List Nat} {counts : List (Nat × Int)} {vis arr : List Nat}
    {c : Int} {blk : BasicBlk}
    (hinv : LoopInv bbs (q :: rest) counts vis arr)
    (hq : alookup counts q = some c)
    (hc : c - 1 ≤ 0)
    (hqvis : q ∉ vis)
    (hblk : alookup bbs q = some blk) :
    LoopInv bbs (rest ++ blk.term.next_ids) (ainsert counts q (c - 1)) (q :: vis)
      (arr ++ [q]) := by
  have hqK : q ∈ akeys bbs := mem_akeys_of_alookup hblk
  have hp := hinv.pending q hqK
  rw [hq] at hp
  have hceq := Option.some.inj hp
  rw [List.count_cons_self] at hceq
  have hkey : rest.count q = 0 ∧
      ((preds bbs q).filter fun x => decide (x ∉ vis)).length = 0 := by
    push_cast at hceq
    constructor <;> omega
  have hpredvis : ∀ a ∈ preds bbs q, a ∈ vis := by
    intro a ha
    by_contra hav
    have hmem : a ∈ (preds bbs q).filter fun x => decide (x ∉ vis) :=
      List.mem_filter.mpr ⟨ha, by simpa using hav⟩
    have := List.length_pos_of_mem hmem
    omega
  have hqarr : q ∉ arr := fun h => hqvis (by rw [hinv.visEq]; exact List.mem_reverse.mpr h)
  have hselfedge : q ∉ blk.term.next_ids := by
    intro hmem
    exact wf_irrefl hacyc q ((edge_iff_next hblk).mpr hmem)
  refine ⟨?_, ?_, ?_, ?_, ?_, ?_, ?_⟩
  · rw [hinv.visEq]
    simp
  · rw [List.nodup_append]
    refine ⟨hinv.nodup, List.nodup_singleton q, ?_⟩
    intro a ha hmem
    simp only [List.mem_singleton] at hmem
    exact hqarr (hmem ▸ ha)
  · intro b hb
    rcases List.mem_append.mp hb with h | h
    · exact hinv.arrKeys b h
    · simp only [List.mem_singleton] at h
      exact h ▸ hqK
  · intro a b he hb
    rcases List.mem_append.mp hb with hbarr | hbq
    · obtain ⟨ha, hlt⟩ := hinv.topo a b he hbarr
      refine ⟨List.mem_append_left _ ha, ?_⟩
      rw [indexOf_append_left [q] ha, indexOf_append_left [q] hbarr]
      exact hlt
    · have hbq2 : b = q := by simpa using hbq
      subst hbq2
      have hapred : a ∈ preds bbs b := mem_preds.mpr he
      have havis : a ∈ vis := hpredvis a hapred
      have haarr : a ∈ arr := by
        rw [hinv.visEq] at havis
        exact List.mem_reverse.mp havis
      refine ⟨List.mem_append_left _ haarr, ?_⟩
      rw [indexOf_append_left [b] haarr, indexOf_append_self hqarr]
      exact List.indexOf_lt_length.mpr haarr
  · intro x hx
    rcases List.mem_append.mp hx with h | h
    · exact hinv.queueKeys x (List.mem_cons_of_mem q h)
    · exact hclosed q blk hblk x h
  · intro b hb
    by_cases hbq : b = q
    · subst hbq
      rw [alookup_ainsert_self]
      have h1 : (rest ++ blk.term.next_ids).count b = 0 := by
        rw [List.count_append, hkey.1, List.count_eq_zero.mpr hselfedge]
      have h2 : ((preds bbs b).filter fun x => decide (x ∉ b :: vis)).length = 0 := by
        rw [List.length_eq_zero, List.filter_eq_nil_iff]
        intro a ha
        have := hpredvis a ha
        simp [List.mem_cons, this]
      rw [h1, h2]
      have hc1 : c = 1 := by
        push_cast at hceq
        omega
      rw [hc1]
      norm_num
    · rw [alookup_ainsert_ne counts q (c - 1) b hbq]
      have hp2 := hinv.pending b hb
      have hcnt : (q :: rest).count b = rest.count b := by
        have h2 : ¬ q = b := fun e => hbq e.symm
        rw [List.count_cons]
        simp [hbq, h2]
      rw [hcnt] at hp2
      rw [hp2]
      congr 1
      have hnd_next : blk.term.next_ids.Nodup := hsucc q blk hblk
      have hcount_next : blk.term.next_ids.count b =
          if b ∈ blk.term.next_ids then 1 else 0 := count_eq_ite_of_nodup hnd_next b
      have hfilter := filter_notmem_cons (hnd.filter _) hqvis (l := preds bbs b)
      have hiff : q ∈ preds bbs b ↔ b ∈ blk.term.next_ids := by
        rw [mem_preds, edge_iff_next hblk]
      rw [List.count_append, hcount_next]
      by_cases hmem : b ∈ blk.term.next_ids
      · have hqp : q ∈ preds bbs b := hiff.mpr hmem
        rw [if_pos hmem]
        rw [if_pos hqp] at hfilter
        push_cast
        omega
      · have hqp : q ∉ preds bbs b := fun h => hmem (hiff.mp h)
        rw [if_neg hmem]
        rw [if_neg hqp] at hfilter
        push_cast
        omega
  · intro b hb hbv
    have hbq : b ≠ q := fun e => hbv (e ▸ List.mem_cons_self q vis)
    have hbv2 : b ∉ vis := fun m => hbv (List.mem_cons_of_mem q m)
    rw [alookup_ainsert_ne counts q (c - 1) b hbq]
    exact hinv.fresh b hb hbv2

theorem loopInv_init (bbs : List (Nat × BasicBlk))
    (hnd : (akeys bbs).Nodup)
    (hzero : 0 ∈ akeys bbs)
    (hconsist : ∀ b blkb, alookup bbs b = some blkb →
      ∀ a, a ∈ blkb.jump_in ↔ edgeB bbs a b = true)
    (hjnodup : ∀ b blkb, alookup bbs b = some blkb → blkb.jump_in.Nodup)
    (hreach : ∀ b ∈ akeys bbs, Reach bbs b) :
    LoopInv bbs [0] (initCounts bbs) [] [] := by
  have hcount : ∀ b ∈ akeys bbs, alookup (initCounts bbs) b =
      some (((preds bbs b).length : Int) + (if b = 0 then 1 else 0)) := by
    intro b hb
    obtain ⟨blkb, hblkb⟩ := alookup_isSome_of_mem_akeys hb
    have hbridge : blkb.jump_in.length = (preds bbs b).length :=
      jlen_eq_preds_length bbs hnd hconsist hjnodup hblkb
    unfold initCounts
    rw [initCounts_fold_lookup bbs hnd, hblkb]
    dsimp only
    by_cases hb0 : b = 0
    · subst hb0
      have hm : alookup [(0, (1 : Int))] 0 = some 1 := rfl
      by_cases hj : blkb.jump_in.length = 0
      · rw [if_pos hj, hm, ← hbridge, hj]
        norm_num
      · rw [if_neg hj, hm]
        simp only [Option.getD_some]
        rw [← hbridge]
        congr 1
        simp
        ring
    · have hm : alookup [(0, (1 : Int))] b = none := by
        have h2 : ¬ (0 : Nat) = b := fun e => hb0 e.symm
        simp [alookup, h2]
      have hj : blkb.jump_in.length ≠ 0 := by
        intro h0
        have hr := hreach b hb
        rcases Relation.ReflTransGen.cases_tail hr with he | ⟨c, _, hedge⟩
        · exact hb0 he
        · have hmem : c ∈ blkb.jump_in := (hconsist b blkb hblkb c).mpr hedge
          rw [List.length_eq_zero] at h0
          rw [h0] at hmem
          simp at hmem
      rw [if_neg hj, hm]
      simp only [Option.getD_none]
      rw [← hbridge, if_neg hb0]
      congr 1
      ring
  refine ⟨rfl, List.nodup_nil, ?_, ?_, ?_, ?_, ?_⟩
  · intro b hb
    simp at hb
  · intro a b _ hb
    simp at hb
  · intro x hx
    simp only [List.mem_singleton] at hx
    exact hx ▸ hzero
  · intro b hb
    rw [hcount b hb]
    have hfilt : ((preds bbs b).filter fun x => decide (x ∉ ([] : List Nat))) =
        preds bbs b := by
      apply List.filter_eq_self.mpr
      intro a _
      simp
    rw [hfilt]
    have hcnt : ([0] : List Nat).count b = if b = 0 then 1 else 0 := by
      by_cases hb0 : b = 0
      · subst hb0
        rfl
      · have h2 : ¬ (0 : Nat) = b := fun e => hb0 e.symm
        simp [List.count_cons, List.count_nil, hb0, h2]
    rw [hcnt]
    by_cases hb0 : b = 0
    · simp [hb0]
      ring
    · simp [hb0]
  · intro b hb _
    exact Or.inl (hcount b hb)

theorem loopInv_final (bbs : List (Nat × BasicBlk))
    (hzero : 0 ∈ akeys bbs)
    (hclosed : ∀ a blk, alookup bbs a = some blk → ∀ b ∈ blk.term.next_ids, b ∈ akeys bbs)
    (hacyc : WellFounded fun a b => edgeB bbs a b = true)
    (hreach : ∀ b ∈ akeys bbs, Reach bbs b)
    {counts : List (Nat × Int)} {vis arr : List Nat}
    (hinv : LoopInv bbs [] counts vis arr) :
    arr.Nodup ∧ (∀ b, b ∈ arr ↔ b ∈ akeys bbs) ∧ arr.head? = some 0 ∧
    (∀ a b, edgeB bbs a b = true → arr.indexOf a < arr.indexOf b) := by
  have hcov : ∀ b ∈ akeys bbs, b ∈ arr := by
    intro b hb
    by_contra hbarr
    obtain ⟨m, hmS, hmin⟩ := hacyc.has_min {x | x ∈ akeys bbs ∧ x ∉ arr} ⟨b, hb, hbarr⟩
    obtain ⟨hmK, hmarr⟩ := hmS
    have hmvis : m ∉ vis := by
      rw [hinv.visEq]
      exact fun h => hmarr (List.mem_reverse.mp h)
    have hpredsub : ∀ a ∈ preds bbs m, a ∈ vis := by
      intro a ha
      have hedge : edgeB bbs a m = true := mem_preds.mp ha
      have haK : a ∈ akeys bbs := edge_mem_left hedge
      by_contra havis
      have haarr : a ∉ arr := fun h =>
        havis (by rw [hinv.visEq]; exact List.mem_reverse.mpr h)
      exact hmin a ⟨haK, haarr⟩ hedge
    have hpend := hinv.pending m hmK
    have hfz : ((preds bbs m).filter fun x => decide (x ∉ vis)).length = 0 := by
      rw [List.length_eq_zero, List.filter_eq_nil_iff]
      intro a ha
      simpa using hpredsub a ha
    rw [hfz] at hpend
    norm_num at hpend
    rcases hinv.fresh m hmK hmvis with hcase | ⟨c, hc1, hc2⟩
    · rw [hpend] at hcase
      have heq := Option.some.inj hcase
      by_cases hm0 : m = 0
      · rw [if_pos hm0] at heq
        omega
      · rw [if_neg hm0] at heq
        have hlen : (preds bbs m).length = 0 := by omega
        have hr := hreach m hmK
        rcases Relation.ReflTransGen.cases_tail hr with he | ⟨c, _, hedge⟩
        · exact hm0 he
        · have hcm : c ∈ preds bbs m := mem_preds.mpr hedge
          rw [List.length_eq_zero] at hlen
          rw [hlen] at hcm
          simp at hcm
    · rw [hpend] at hc1
      have := Option.some.inj hc1
      omega
  have hiff : ∀ b, b ∈ arr ↔ b ∈ akeys bbs := fun b => ⟨hinv.arrKeys b, hcov b⟩
  have htopo : ∀ a b, edgeB bbs a b = true → arr.indexOf a < arr.indexOf b := by
    intro a b he
    have hbK : b ∈ akeys bbs := by
      unfold edgeB at he
      cases ha : alookup bbs a with
      | none => rw [ha] at he; exact absurd he (by simp)
      | some blka =>
        rw [ha] at he
        exact hclosed a blka ha b (by simpa using he)
    exact (hinv.topo a b he (hcov b hbK)).2
  have hle : ∀ a, Reach bbs a → a ∈ arr → (a = 0 ∨ arr.indexOf 0 < arr.indexOf a) := by
    intro a hr
    unfold Reach at hr
    induction hr with
    | refl => intro _; exact Or.inl rfl
    | tail hseg hedge ih =>
      intro ha
      obtain ⟨hcarr, hlt⟩ := hinv.topo _ _ hedge ha
      rcases ih hcarr with e | hlt0
      · exact Or.inr (e ▸ hlt)
      · exact Or.inr (lt_trans hlt0 hlt)
  have h0arr : 0 ∈ arr := hcov 0 hzero
  obtain ⟨h, t, harr⟩ : ∃ h t, arr = h :: t := by
    cases arr with
    | nil => simp at h0arr
    | cons h t => exact ⟨h, t, rfl⟩
  have hh : h ∈ arr := by
    rw [harr]
    exact List.mem_cons_self h t
  have hhK : h ∈ akeys bbs := hinv.arrKeys h hh
  have hhead : arr.head? = some h := by
    rw [harr]
    rfl
  rcases hle h (hreach h hhK) hh with e | hlt
  · exact ⟨hinv.nodup, hiff, by rw [hhead, e], htopo⟩
  · exfalso
    have hzz : arr.indexOf h = 0 := by
      rw [harr]
      exact List.indexOf_cons_self h t
    omega

theorem arrangeLoop_ok (bbs : List (Nat × BasicBlk))
    (hnd : (akeys bbs).Nodup)
    (hzero : 0 ∈ akeys bbs)
    (hclosed : ∀ a blk, alookup bbs a = some blk → ∀ b ∈ blk.term.next_ids, b ∈ akeys bbs)
    (hsucc : ∀ a blk, alookup bbs a = some blk → blk.term.next_ids.Nodup)
    (hacyc : WellFounded fun a b => edgeB bbs a b = true)
    (hreach : ∀ b ∈ akeys bbs, Reach bbs b) :
    ∀ (fuel : Nat) (queue : List Nat) (counts : List (Nat × Int)) (vis arr : List Nat),
    LoopInv bbs queue counts vis arr →
    3 * ((akeys bbs).filter fun x => decide (x ∉ vis)).length + queue.length ≤ fuel →
    ∃ arrF, arrangeLoop bbs (fun _ => 0) fuel queue counts vis arr = Except.ok arrF ∧
      arrF.Nodup ∧ (∀ b, b ∈ arrF ↔ b ∈ akeys bbs) ∧ arrF.head? = some 0 ∧
      (∀ a b, edgeB bbs a b = true → arrF.indexOf a < arrF.indexOf b) := by
  intro fuel
  induction fuel with
  | zero =>
    intro queue counts vis arr hinv hfuel
    cases queue with
    | nil =>
      obtain ⟨p1, p2, p3, p4⟩ := loopInv_final bbs hzero hclosed hacyc hreach hinv
      exact ⟨arr, rfl, p1, p2, p3, p4⟩
    | cons q rest =>
      exfalso
      simp only [List.length_cons] at hfuel
      omega
  | succ n ih =>
    intro queue counts vis arr hinv hfuel
    cases queue with
    | nil =>
      obtain ⟨p1, p2, p3, p4⟩ := loopInv_final bbs hzero hclosed hacyc hreach hinv
      exact ⟨arr, rfl, p1, p2, p3, p4⟩
    | cons q rest =>
      have hqK : q ∈ akeys bbs := hinv.queueKeys q (List.mem_cons_self q rest)
      obtain ⟨c0, hq⟩ : ∃ c, alookup counts q = some c := ⟨_, hinv.pending q hqK⟩
      simp only [arrangeLoop]
      rw [hq]
      dsimp only
      simp only [List.length_cons] at hfuel
      by_cases h1 : (0 : Int) < c0 - 1
      · rw [if_pos h1]
        exact ih rest (ainsert counts q (c0 - 1)) vis arr
          (loopInv_skip bbs hinv hq (Or.inl (by omega))) (by omega)
      · rw [if_neg h1]
        by_cases h2 : q ∈ vis
        · rw [if_pos h2]
          exact ih rest (ainsert counts q (c0 - 1)) vis arr
            (loopInv_skip bbs hinv hq (Or.inr h2)) (by omega)
        · rw [if_neg h2]
          obtain ⟨blk, hblk⟩ := alookup_isSome_of_mem_akeys hqK
          rw [hblk]
          dsimp only
          apply ih (rest ++ blk.term.next_ids) (ainsert counts q (c0 - 1)) (q :: vis)
            (arr ++ [q])
            (loopInv_emit bbs hnd hclosed hsucc hacyc hinv hq (by omega) h2 hblk)
          have hU := filter_notmem_cons hnd h2 (l := akeys bbs)
          rw [if_pos hqK] at hU
          have hnl := next_ids_length blk.term
          simp only [List.length_append]
          omega

/-- C2, amended: for a well-formed loop-free control-flow graph — unique
block ids, terminator targets among the declared blocks, `jump_in` sets
consistent with the terminators and duplicate-free, no conditional jump
with two identical targets, an acyclic edge relation (so, modelled from
the spec, the cycle pre-pass yields zero for every block), and every
block reachable from the entry — the linearizer succeeds, and its
arrangement contains every block exactly once, starts with block 0, and
places every block after all of its predecessors.  The loop-free diamond
`{0→1, 0→2, 1→3, 2→3}` linearizes to `[0, 1, 2, 3]`: block 0 first,
block 3 last, blocks 1 and 2 between them. -/
theorem c2_linearizer_amended (bbs : List (Nat × BasicBlk))
    (hnd : (akeys bbs).Nodup)
    (hzero : 0 ∈ akeys bbs)
    (hclosed : ∀ a blk, alookup bbs a = some blk → ∀ b ∈ blk.term.next_ids, b ∈ akeys bbs)
    (hconsist : ∀ b blkb, alookup bbs b = some blkb →
      ∀ a, a ∈ blkb.jump_in ↔ edgeB bbs a b = true)
    (hjnodup : ∀ b blkb, alookup bbs b = some blkb → blkb.jump_in.Nodup)
    (hsucc : ∀ a blk, alookup bbs a = some blk → blk.term.next_ids.Nodup)
    (hacyc : WellFounded fun a b => edgeB bbs a b = true)
    (hreach : ∀ b ∈ akeys bbs, Reach bbs b) :
    (∃ arr, arrange_basic_blocks bbs (fun _ => 0) = Except.ok arr ∧ arr.Nodup ∧
      (∀ b, b ∈ arr ↔ b ∈ akeys bbs) ∧ arr.head? = some 0 ∧
      (∀ a b, edgeB bbs a b = true → arr.indexOf a < arr.indexOf b)) ∧
    arrange_basic_blocks diamondBbs (fun _ => 0) = Except.ok [0, 1, 2, 3] := by
  constructor
  · unfold arrange_basic_blocks
    apply arrangeLoop_ok bbs hnd hzero hclosed hsucc hacyc hreach
      (3 * bbs.length + 1) [0] (initCounts bbs) [] []
      (loopInv_init bbs hnd hzero hconsist hjnodup hreach)
    have hfe : ((akeys bbs).filter fun x => decide (x ∉ ([] : List Nat))) = akeys bbs := by
      apply List.filter_eq_self.mpr
      intro a _
      simp
    rw [hfe]
    have : (akeys bbs).length = bbs.length := List.length_map bbs Prod.fst
    simp only [List.length_cons, List.length_nil]
    omega
  · rfl

theorem diamond_lookup (a : Nat) (blk : BasicBlk) (h : alookup diamondBbs a = some blk) :
    (a = 0 ∧ blk = ⟨[], JumpInst.Conditional (Value.IntImm 0) 1 2, [], []⟩) ∨
    (a = 1 ∧ blk = ⟨[], JumpInst.Jump 3, [0], []⟩) ∨
    (a = 2 ∧ blk = ⟨[], JumpInst.Jump 3, [0], []⟩) ∨
    (a = 3 ∧ blk = ⟨[], JumpInst.Return none, [1, 2], []⟩) := by
  simp only [diamondBbs, alookup] at h
  split_ifs at h with e0 e1 e2 e3
  · exact Or.inl ⟨e0.symm, (Option.some.inj h).symm⟩
  · exact Or.inr (Or.inl ⟨e1.symm, (Option.some.inj h).symm⟩)
  · exact Or.inr (Or.inr (Or.inl ⟨e2.symm, (Option.some.inj h).symm⟩))
  · exact Or.inr (Or.inr (Or.inr ⟨e3.symm, (Option.some.inj h).symm⟩))

theorem diamond_edge (a b : Nat) : edgeB diamondBbs a b = true ↔
    ((a = 0 ∧ b = 1) ∨ (a = 0 ∧ b = 2) ∨ (a = 1 ∧ b = 3) ∨ (a = 2 ∧ b = 3)) := by
  constructor
  · intro h
    unfold edgeB at h
    cases hl : alookup diamondBbs a with
    | none => rw [hl] at h; exact absurd h (by simp)
    | some blk =>
      rw [hl] at h
      rcases diamond_lookup a blk hl with ⟨e, hb⟩ | ⟨e, hb⟩ | ⟨e, hb⟩ | ⟨e, hb⟩ <;>
        subst e <;> subst hb <;> simp [JumpInst.next_ids] at h <;> tauto
  · intro h
    rcases h with ⟨e1, e2⟩ | ⟨e1, e2⟩ | ⟨e1, e2⟩ | ⟨e1, e2⟩ <;> subst e1 <;> subst e2 <;> rfl

/-- Witness for C2 (amended): the diamond graph satisfies every
hypothesis, and the theorem yields the arrangement `[0, 1, 2, 3]` with
its coverage, entry-first and predecessor-order properties. -/
theorem c2_linearizer_amended_witness :
    arrange_basic_blocks diamondBbs (fun _ => 0) = Except.ok [0, 1, 2, 3] ∧
    ([0, 1, 2, 3] : List Nat).Nodup ∧
    ([0, 1, 2, 3] : List Nat).head? = some 0 ∧
    (∀ b, b ∈ ([0, 1, 2, 3] : List Nat) ↔ b ∈ akeys diamondBbs) ∧
    ([0, 1, 2, 3] : List Nat).indexOf 2 < ([0, 1, 2, 3] : List Nat).indexOf 3 := by
  have hnd : (akeys diamondBbs).Nodup := by decide
  have hzero : 0 ∈ akeys diamondBbs := by decide
  have hclosed : ∀ a blk, alookup diamondBbs a = some blk →
      ∀ b ∈ blk.term.next_ids, b ∈ akeys diamondBbs := by
    intro a blk h b hb
    rcases diamond_lookup a blk h with ⟨_, e⟩ | ⟨_, e⟩ | ⟨_, e⟩ | ⟨_, e⟩ <;> subst e <;>
      simp [JumpInst.next_ids] at hb <;> rcases hb with h | h <;> simp [h, akeys, diamondBbs]
  have hconsist : ∀ b blkb, alookup diamondBbs b = some blkb →
      ∀ a, a ∈ blkb.jump_in ↔ edgeB diamondBbs a b = true := by
    intro b blkb h a
    rw [diamond_edge]
    rcases diamond_lookup b blkb h with ⟨e, hb⟩ | ⟨e, hb⟩ | ⟨e, hb⟩ | ⟨e, hb⟩ <;>
      subst e <;> subst hb <;> simp
  have hjnodup : ∀ b blkb, alookup diamondBbs b = some blkb → blkb.jump_in.Nodup := by
    intro b blkb h
    rcases diamond_lookup b blkb h with ⟨_, e⟩ | ⟨_, e⟩ | ⟨_, e⟩ | ⟨_, e⟩ <;> subst e <;>
      decide
  have hsucc : ∀ a blk, alookup diamondBbs a = some blk → blk.term.next_ids.Nodup := by
    intro a blk h
    rcases diamond_lookup a blk h with ⟨_, e⟩ | ⟨_, e⟩ | ⟨_, e⟩ | ⟨_, e⟩ <;> subst e <;>
      decide
  have hacyc : WellFounded fun a b => edgeB diamondBbs a b = true := by
    have hsub : ∀ a b : Nat, edgeB diamondBbs a b = true → a < b := by
      intro a b h
      rcases (diamond_edge a b).mp h with ⟨e1, e2⟩ | ⟨e1, e2⟩ | ⟨e1, e2⟩ | ⟨e1, e2⟩ <;>
        subst e1 <;> subst e2 <;> omega
    exact Subrelation.wf (fun {a b} h => hsub a b h) (Nat.lt_wfRel).wf
  have hreach : ∀ b ∈ akeys diamondBbs, Reach diamondBbs b := by
    intro b hb
    have hb4 : b = 0 ∨ b = 1 ∨ b = 2 ∨ b = 3 := by
      simpa [akeys, diamondBbs] using hb
    have h01 : edgeB diamondBbs 0 1 = true := rfl
    have h02 : edgeB diamondBbs 0 2 = true := rfl
    have h13 : edgeB diamondBbs 1 3 = true := rfl
    rcases hb4 with e | e | e | e <;> subst e
    · exact Relation.ReflTransGen.refl
    · exact Relation.ReflTransGen.single h01
    · exact Relation.ReflTransGen.single h02
    · exact Relation.ReflTransGen.tail (Relation.ReflTransGen.single h01) h13
  obtain ⟨⟨arr, hrun, hnodup2, hcov, hhead, htopo⟩, hdia⟩ :=
    c2_linearizer_amended diamondBbs hnd hzero hclosed hconsist hjnodup hsucc hacyc hreach
  have harr : arr = [0, 1, 2, 3] := Except.ok.inj (hrun.symm.trans hdia)
  subst harr
  exact ⟨hdia, hnodup2, hhead, hcov, htopo 2 3 rfl⟩

end Chigusa
